import Mathlib

/-!
Verification of the legacy-puyo-tools binary codec layer.

This file gives a shallow embedding, in Lean, of the format codecs of the
repository (the fpd character+width table, the fmp glyph table, the fnt CSV
projection, the 4bpp bitmap pack/unpack routines, and the mtx dialog-string
table), together with theorems settling the specification claims about them.

Python byte strings are modelled as `List Nat` (each element a byte value),
Python strings as `List Nat` of Unicode code points (Python `chr` accepts
surrogate code points, which Lean `Char` does not, so raw code points are
used), and fallible Python code (raised exceptions) as `Option`/`Except`.
-/

namespace LegacyPuyo

/-- Decidable equality for `Except`, so that concrete decoder outcomes can
be checked by `decide`. -/
instance [DecidableEq ε] [DecidableEq α] : DecidableEq (Except ε α) :=
  fun x y =>
    match x, y with
    | .error a, .error b =>
        if h : a = b then isTrue (by rw [h])
        else isFalse (by intro hc; injection hc; contradiction)
    | .ok a, .ok b =>
        if h : a = b then isTrue (by rw [h])
        else isFalse (by intro hc; injection hc; contradiction)
    | .error _, .ok _ => isFalse (by intro hc; injection hc)
    | .ok _, .error _ => isFalse (by intro hc; injection hc)

/-- A Python string, as the list of its Unicode code points. -/
abbrev PyStr := List Nat

/-- Code points of a Lean string literal, used to embed Python string
constants. -/
def s2c (s : String) : PyStr :=
  s.data.map Char.toNat

/-- Little-endian interpretation of a byte list, as done by
`int.from_bytes(data, "little")`.  Reading fewer bytes than requested (at end
of stream) simply yields the value of the bytes obtained, and reading nothing
yields `0`, exactly as in Python. -/
def fromBytesLE : List Nat → Nat
  | [] => 0
  | b :: rest => b + 256 * fromBytesLE rest

/-- Little-endian serialization of `v` on `w` bytes, as done by
`v.to_bytes(w, "little")` when `v < 256 ^ w`. -/
def toBytesLE : Nat → Nat → List Nat
  | 0, _ => []
  | w + 1, v => v % 256 :: toBytesLE w (v / 256)

/-- Chunking worker, structurally recursive on a fuel argument so that the
kernel can evaluate it on concrete inputs; `fuel ≥ l.length` makes the fuel
irrelevant when `w ≠ 0`. -/
def chunkListAux (w : Nat) : Nat → List α → List (List α)
  | 0, _ => []
  | _, [] => []
  | fuel + 1, a :: l => (a :: l).take w :: chunkListAux w fuel ((a :: l).drop w)

/-- Split a list into consecutive chunks of `w` elements (the last chunk may
be shorter); embeds Python loops of the shape `for i in range(0, len(l), w)`
acting on `l[i : i + w]`.  For `w = 0` such a Python loop raises
`ValueError`, so callers must test `w` first; here the result is `[]`. -/
def chunkList (l : List α) (w : Nat) : List (List α) :=
  if w = 0 then [] else chunkListAux w l.length l

/-- First index of an element satisfying `p`, mirroring the first-match
semantics of a `bidict` inverse lookup over the value list of the table. -/
def pyFindIdx (p : α → Bool) : List α → Option Nat
  | [] => none
  | a :: l => if p a then some 0 else (pyFindIdx p l).map (· + 1)

/-!
## Format B: the fpd character table (`formats/fpd.py`)
-/

/-- `FpdCharacter`: a character entry of the fpd table.  `character` is a
Python string (here its list of code points); `width` is declared with
`attrs.field(eq=False)` in the source, so it does not take part in
equality. -/
structure FpdCharacter where
  character : PyStr
  width : Nat
deriving Repr, DecidableEq

/-- Equality of `FpdCharacter` values as the source defines it: `attrs`
generates `__eq__` from the fields not marked `eq=False`, so only
`character` is compared and `width` is ignored. -/
def fpdCharEq (a b : FpdCharacter) : Bool :=
  a.character == b.character

/-- A value of the `OrderedBidict` backing `Fpd.entries`: either a concrete
character entry or the index of an earlier entry (an alias, stored as a
plain `int` in the source). -/
inductive FpdVal where
  | chr (c : FpdCharacter)
  | aliasIdx (j : Nat)
deriving Repr, DecidableEq

/-- The fpd character table.  The source stores an `OrderedBidict[int, int |
FpdCharacter]`, but every construction path (`decode`, `read_csv`) inserts
keys `0, 1, 2, ...` in order via `enumerate`, so the table is modelled as
the ordered list of its values, the key being the position. -/
abbrev FpdTable := List FpdVal

/-- Python `==` between an `FpdCharacter` probe and a bidict value: an
`attrs` instance never equals an `int`, so only `chr` values can match, and
they match by character alone. -/
def fpdValMatchesChar (c : FpdCharacter) : FpdVal → Bool
  | .chr c2 => fpdCharEq c2 c
  | .aliasIdx _ => false

/-- Python `==` between an `int` probe and a bidict value: only alias
values (plain `int`s) can match. -/
def fpdValMatchesIdx (j : Nat) : FpdVal → Bool
  | .chr _ => false
  | .aliasIdx j2 => j2 == j

/-- The `while character_table.inverse.get(character_index, -1) != -1` loop
of `Fpd.decode`: repeatedly move from an index to the entry that aliases it,
if any.  A `bidict` keeps values unique, so each index has at most one
aliaser, and every aliaser was inserted later than its target, so
`t.length` steps of fuel always suffice on tables the source builds. -/
def fpdWalkAliasers (t : FpdTable) : Nat → Nat → Nat
  | 0, j => j
  | fuel + 1, j =>
      match pyFindIdx (fpdValMatchesIdx j) t with
      | none => j
      | some k => fpdWalkAliasers t fuel k

/-- One step of the `Fpd.decode` loop body: a record whose character is
already present (by `attrs` equality, character only) is stored as an alias
to the end of the aliaser chain of the first occurrence; otherwise the
concrete entry is appended. -/
def fpdDecodeStep (acc : FpdTable) (r : Nat × Nat) : FpdTable :=
  let c : FpdCharacter := ⟨[r.1], r.2⟩
  match pyFindIdx (fpdValMatchesChar c) acc with
  | some i0 => acc ++ [.aliasIdx (fpdWalkAliasers acc acc.length i0)]
  | none => acc ++ [.chr c]

/-- The table-construction loop shared by `Fpd.decode` (and, with the same
logic, `Fpd.read_csv`), folding `fpdDecodeStep` over the records in input
order. -/
def buildFpdTable (records : List (Nat × Nat)) : FpdTable :=
  records.foldl fpdDecodeStep []

/-- Errors raised by fpd decoding: `FormatError` for a malformed table. -/
inductive FpdDecodeErr where
  | formatError
deriving Repr, DecidableEq

/-- The records read by `read_fpd_entries`: each full 3-byte chunk is
unpacked as `<HB` — a little-endian 16-bit code point and an 8-bit width. -/
def fpdRecords (data : List Nat) : List (Nat × Nat) :=
  (chunkList data 3).map fun c => (c.getD 0 0 + 256 * c.getD 1 0, c.getD 2 0)

/-- `Fpd.decode`: read 3-byte records until end of stream and build the
character table.  The source raises `FormatError` lazily at the first short
read, which happens exactly when the stream length is not a multiple of 3;
the partially built table is discarded by the raise, so the observable
behaviour is an error precisely on those lengths. -/
def fpdDecode (data : List Nat) : Except FpdDecodeErr FpdTable :=
  if data.length % 3 ≠ 0 then .error .formatError
  else .ok (buildFpdTable (fpdRecords data))

/-- Resolution of a bidict value: follow `int` aliases through the table
until a concrete `FpdCharacter` is reached.  The source runs an unbounded
`while isinstance(character, int)` loop and raises `KeyError` on an absent
index; here a missing index or exhausted fuel yields `none` (on tables the
source builds, alias targets strictly decrease, so fuel `t.length` always
suffices). -/
def resolveFpdValue (t : FpdTable) : Nat → FpdVal → Option FpdCharacter
  | _, .chr c => some c
  | 0, .aliasIdx _ => none
  | fuel + 1, .aliasIdx j =>
      match t.get? j with
      | none => none
      | some v => resolveFpdValue t fuel v

/-- Resolution starting from an index: `self.entries[index]` followed by the
alias-following loop. -/
def resolveFpdEntry (t : FpdTable) (fuel index : Nat) : Option FpdCharacter :=
  (t.get? index).bind (resolveFpdValue t fuel)

/-- `Fpd.__getitem__`: resolve an index to its character string. -/
def fpdGetItem (t : FpdTable) (index : Nat) : Option PyStr :=
  (resolveFpdEntry t t.length index).map FpdCharacter.character

/-- `Fpd.get_index`: look up `FpdCharacter(character)` (default width `0`)
in the inverse map; `attrs` equality compares characters only. -/
def fpdGetIndex (t : FpdTable) (character : PyStr) : Option Nat :=
  pyFindIdx (fpdValMatchesChar ⟨character, 0⟩) t

/-- Errors raised by `Fpd.encode`: `formatError` is the
`FormatError(f"Character '...' cannot be encoded to fpd")` wrapping of the
`UnicodeEncodeError` of `FpdCharacter.encode`, and carries the offending
character; `typeError` is the uncaught `TypeError` of `ord` applied to a
string that is not a single character; `lookupFailure` stands for the
uncaught `KeyError` (or the non-terminating alias loop) on a table that
violates the construction invariant — unreachable on tables the source
builds. -/
inductive FpdEncodeErr where
  | formatError (character : PyStr)
  | typeError
  | lookupFailure
deriving Repr, DecidableEq

/-- `FpdCharacter.encode`: `struct.pack("<HB", ord(character), width)` —
two little-endian bytes of code point and one byte of width.  `struct`
rejects a code point above `0xFFFF` or a width above `0xFF` (wrapped by the
source into a `UnicodeEncodeError`, here the `none` case); `ord` of a
non-single-character string raises `TypeError`, modelled separately by the
caller. -/
def fpdCharacterEncode (c : FpdCharacter) : Option (List Nat) :=
  match c.character with
  | [cp] =>
      if cp < 2 ^ 16 ∧ c.width < 2 ^ 8 then
        some [cp % 256, cp / 256, c.width]
      else none
  | _ => none

/-- Whether `ord` accepts the character (a single code point). -/
def fpdCharacterSingle (c : FpdCharacter) : Bool :=
  c.character.length == 1

/-- The `Fpd.encode` loop over the values of the table in insertion order:
resolve each value through the alias chain, then write its 3-byte record;
the first failure aborts the encode. -/
def fpdEncodeGo (t : FpdTable) : List FpdVal → Except FpdEncodeErr (List Nat)
  | [] => .ok []
  | v :: rest =>
      match resolveFpdValue t t.length v with
      | none => .error .lookupFailure
      | some c =>
          if fpdCharacterSingle c then
            match fpdCharacterEncode c with
            | none => .error (.formatError c.character)
            | some bs => (fpdEncodeGo t rest).map (bs ++ ·)
          else .error .typeError

/-- `Fpd.encode`: serialize every entry of the table, in table order, to
its 3-byte record. -/
def fpdEncode (t : FpdTable) : Except FpdEncodeErr (List Nat) :=
  fpdEncodeGo t t

/-- The code point of record `i`. -/
def cpAt (records : List (Nat × Nat)) (i : Nat) : Option Nat :=
  (records.get? i).map Prod.fst

/-- Invariant tying a table built by the decode loop to its records: the
table has one value per record; a concrete entry carries its own record
verbatim; an alias points strictly earlier and preserves the code point. -/
def FpdTracks (records : List (Nat × Nat)) (t : FpdTable) : Prop :=
  t.length = records.length ∧
  (∀ i c, t.get? i = some (.chr c) →
    ∃ r, records.get? i = some r ∧ c = ⟨[r.1], r.2⟩) ∧
  (∀ i j, t.get? i = some (.aliasIdx j) →
    j < i ∧ cpAt records j = cpAt records i)

/-- Decidable form of the construction invariant: every alias points
strictly earlier in the table. -/
def fpdWfB (t : FpdTable) : Bool :=
  (List.range t.length).all fun i =>
    match t.get? i with
    | some (.aliasIdx j) => decide (j < i)
    | _ => true

/-- Shape invariant of the data model on a concrete entry: a single
character (`ord` accepts it) and an unsigned 8-bit width. -/
def fpdEntryShapeOk : FpdVal → Bool
  | .chr c => c.character.length == 1 && decide (c.width < 256)
  | .aliasIdx _ => true

/-- Whether a concrete entry's character lies in the Basic Multilingual
Plane (every code point below `2 ^ 16`). -/
def fpdEntryBmp : FpdVal → Bool
  | .chr c => c.character.all fun cp => decide (cp < 2 ^ 16)
  | .aliasIdx _ => true

/-- Whether a table value resolves only to BMP characters. -/
def FpdValueBmpOk (t : FpdTable) (v : FpdVal) : Prop :=
  ∀ c, resolveFpdValue t t.length v = some c →
    ∀ cp ∈ c.character, cp < 2 ^ 16

/-!
## CSV projections (`formats/fpd.py` and `formats/_csv.py`)

A parsed CSV file is modelled as its list of rows, each row the list of its
cell strings.  `csv.DictReader.fieldnames` is the first row (`None`, i.e.
`none`, for an empty file), and the sources compare it against their header
constants before reading any data row.  Data rows are taken at the header's
arity (cell 0 and cell 1); `DictReader` padding of short or long rows is
not exercised by the formats and is not modelled.
-/

/-- `FPD_CSV_HEADER = ["character", "width"]`. -/
def FPD_CSV_HEADER : List PyStr :=
  [s2c "character", s2c "width"]

/-- `CSV_TABLE_HEADER = ["code_point", "width"]`, the header of the shared
CSV helper used by the fnt format. -/
def CSV_TABLE_HEADER : List PyStr :=
  [s2c "code_point", s2c "width"]

/-- Errors of the CSV readers: the `FormatError`/`FileFormatError` on a
header mismatch, and the `ValueError` of `int(width, base=16)` on a width
cell that is not a hexadecimal numeral. -/
inductive CsvErr where
  | headerMismatch
  | badWidth
deriving Repr, DecidableEq

/-- Value of one hexadecimal digit character. -/
def hexDigitVal (c : Nat) : Option Nat :=
  if 48 ≤ c ∧ c ≤ 57 then some (c - 48)
  else if 97 ≤ c ∧ c ≤ 102 then some (c - 87)
  else if 65 ≤ c ∧ c ≤ 70 then some (c - 55)
  else none

def pyIntHexGo : List Nat → Nat → Option Nat
  | [], acc => some acc
  | c :: rest, acc =>
      match hexDigitVal c with
      | none => none
      | some d => pyIntHexGo rest (acc * 16 + d)

/-- `int(s, base=16)` on the width strings the tool reads and writes: an
optional `0x`/`0X` marker followed by at least one hexadecimal digit
(`ValueError`, i.e. `none`, otherwise). -/
def pyIntHex (s : PyStr) : Option Nat :=
  let digits :=
    match s with
    | 48 :: 120 :: rest => rest
    | 48 :: 88 :: rest => rest
    | other => other
  if digits.isEmpty then none else pyIntHexGo digits 0

/-- `hex(n)`: `0x` followed by the lowercase base-16 digits of `n`. -/
def hexStr (n : Nat) : PyStr :=
  s2c "0x" ++ (Nat.toDigits 16 n).map Char.toNat

/-- The data-row loop of `Fpd.read_csv`: parse the width in hexadecimal and
apply the same alias/de-duplication logic as `Fpd.decode`, row by row. -/
def fpdReadCsvRows : List (List PyStr) → FpdTable → Except CsvErr FpdTable
  | [], acc => .ok acc
  | row :: rest, acc =>
      match pyIntHex (row.getD 1 []) with
      | none => .error .badWidth
      | some w =>
          let c : FpdCharacter := ⟨row.getD 0 [], w⟩
          match pyFindIdx (fpdValMatchesChar c) acc with
          | some i0 =>
              fpdReadCsvRows rest
                (acc ++ [.aliasIdx (fpdWalkAliasers acc acc.length i0)])
          | none => fpdReadCsvRows rest (acc ++ [.chr c])

/-- `Fpd.read_csv`: reject any CSV whose field names differ from
`FPD_CSV_HEADER`, then fold the data rows into a table. -/
def fpdReadCsv (rows : List (List PyStr)) : Except CsvErr FpdTable :=
  if rows.head? ≠ some FPD_CSV_HEADER then .error .headerMismatch
  else fpdReadCsvRows rows.tail []

/-- Alias resolution of every table value in order, as the `write_csv` and
`encode` loops perform it; `none` on a table whose aliases dangle. -/
def resolveAllFpd (t : FpdTable) : Option (List FpdCharacter) :=
  t.mapM (resolveFpdValue t t.length)

/-- `Fpd.write_csv`: the header row followed by one `character, hex-width`
row per table entry, aliases resolved. -/
def fpdWriteCsv (t : FpdTable) : Option (List (List PyStr)) :=
  (resolveAllFpd t).map fun cs =>
    FPD_CSV_HEADER :: cs.map fun c => [c.character, hexStr c.width]

/-- `csv.OrderedDict` assignment: overwrite in place when the key exists,
append otherwise. -/
def odInsert (table : List (PyStr × α)) (k : PyStr) (v : α) :
    List (PyStr × α) :=
  if table.any fun e => e.1 == k then
    table.map fun e => if e.1 == k then (k, v) else e
  else table ++ [(k, v)]

/-- `read_csv_character_table` of `formats/_csv.py`, used by the fnt
format: reject any CSV whose field names differ from `CSV_TABLE_HEADER`,
then store `cast(width)` under the code-point cell, in row order.  The
width cell is passed to `cast` verbatim (no numeric conversion). -/
def readCsvCharacterTable (cast : PyStr → α) (rows : List (List PyStr)) :
    Except CsvErr (List (PyStr × α)) :=
  if rows.head? ≠ some CSV_TABLE_HEADER then .error .headerMismatch
  else .ok (rows.tail.foldl
    (fun acc row => odInsert acc (row.getD 0 []) (cast (row.getD 1 []))) [])

/-- `write_csv_character_table` of `formats/_csv.py`: the shared header row
followed by one `code_point, hex-width` row per entry. -/
def writeCsvCharacterTable (table : List (PyStr × Nat)) :
    List (List PyStr) :=
  CSV_TABLE_HEADER :: table.map fun e => [e.1, hexStr e.2]

/-!
## Bitmap graphic codec (`formats/_graphics.py`)
-/

/-- The two pixels of one 4bpp byte: the low nibble is the first (left)
pixel, the high nibble the second, and `np.array(..., dtype=bool)` turns a
nonzero nibble into `True`. -/
def expand4bppByte (b : Nat) : List Bool :=
  [decide (b % 16 ≠ 0), decide (b / 16 ≠ 0)]

/-- `parse_4bpp_graphic`: cut the byte stream into rows of `graphic_width`
bytes and expand each byte into its two pixels.  `graphic_width = 0` makes
the Python `range` step zero, a `ValueError`; rows of unequal length (the
stream longer than one row but not a whole number of rows) are rejected by
`np.array`. -/
def parse4bppGraphic (graphicData : List Nat) (graphicWidth : Nat) :
    Option (List (List Bool)) :=
  if graphicWidth = 0 then none
  else if graphicData.length % graphicWidth ≠ 0 ∧
      graphicWidth < graphicData.length then none
  else some ((chunkList graphicData graphicWidth).map fun row =>
    (row.map expand4bppByte).flatten)

/-- `write_4bpp_graphic` on the flattened pixel array (`reshape(-1)` at the
call sites): pixels are grouped two at a time into `low ∣ high << 4`; a
trailing odd pixel fails the two-element tuple unpacking (`ValueError`). -/
def write4bppPixels : List Bool → Option (List Nat)
  | [] => some []
  | [_] => none
  | a :: b :: rest =>
      (write4bppPixels rest).map fun bs => (b.toNat * 16 + a.toNat) :: bs

/-- Packing a boolean matrix: flatten row-major and write the pixel pairs. -/
def write4bppGraphic (m : List (List Bool)) : Option (List Nat) :=
  write4bppPixels m.flatten

/-!
## Format A: the fmp glyph table (`formats/fmp.py`)
-/

/-- Errors of `Fmp.decode`: the `FormatError` on a size that does not match
the character cell size, and the `ZeroDivisionError` Python raises when the
computed cell size is zero. -/
inductive FmpErr where
  | formatError
  | zeroDivisionError
deriving Repr, DecidableEq

/-- `Fmp.decode`: with `bytes_width = font_size * 4 // 8` and
`character_size = bytes_width ** 2 * 2`, reject any stream whose length is
not an exact multiple of the cell size, then cut the stream into cells, the
cells into rows of `bytes_width` bytes, and the bytes into nibble pixels
(low nibble first). -/
def fmpDecode (data : List Nat) (fontSize : Nat) :
    Except FmpErr (List (List (List Bool))) :=
  let bytesWidth := fontSize * 4 / 8
  let characterSize := bytesWidth ^ 2 * 2
  if characterSize = 0 then .error .zeroDivisionError
  else if data.length % characterSize ≠ 0 then .error .formatError
  else .ok ((chunkList data characterSize).map fun cell =>
    (chunkList cell bytesWidth).map fun row =>
      (row.map expand4bppByte).flatten)

/-!
## Format D: the mtx dialog-string table (`formats/mtx.py`)
-/

/-- Errors of `Mtx.decode`: the size-check `FileFormatError`, the
`ZeroDivisionError` of `size % 0` when the leading length field is zero,
and the `FileFormatError` for an unrecognized offset-width identifier. -/
inductive MtxErr where
  | sizeError
  | zeroDivisionError
  | formatError
deriving Repr, DecidableEq

/-- A sequential `int.from_bytes(fp.read(n))` at stream position `pos`:
reading past end of stream yields the remaining bytes, or `0` at EOF,
exactly as in the source. -/
def readWord (data : List Nat) (pos n : Nat) : Nat :=
  fromBytesLE ((data.drop pos).take n)

/-- `count` consecutive little-endian words of width `w`, read sequentially
from position `pos`. -/
def readWords (data : List Nat) (w : Nat) : Nat → Nat → List Nat
  | _, 0 => []
  | pos, count + 1 => readWord data pos w :: readWords data w (pos + w) count

/-- The `pairwise(sections)` loop of `Mtx.decode`: for each consecutive
pair of section offsets, read `(next - current) // 2` sixteen-bit words
sequentially (Python floor division of a possibly negative difference,
hence the `Int.fdiv`; a non-positive count reads nothing). -/
def mtxStringsLoop (data : List Nat) : List Nat → Nat → List (List Nat)
  | a :: b :: rest, pos =>
      let cnt := (((b : Int) - (a : Int)).fdiv 2).toNat
      readWords data 2 pos cnt :: mtxStringsLoop data (b :: rest) (pos + 2 * cnt)
  | _, _ => []

/-- The common tail of `Mtx.decode` after the offset width is known:
read the section-table offset and the first string offset, read the
remaining section entries, append the leading length field as the final
sentinel and cut the string region. -/
def mtxDecodeBody (data : List Nat) (mtxLength offsetWordSize pos : Nat) :
    List (List Nat) :=
  let sectionTableOffset := readWord data pos offsetWordSize
  let stringTableOffset := readWord data (pos + offsetWordSize) offsetWordSize
  let pos2 := pos + 2 * offsetWordSize
  let count := (((stringTableOffset : Int) - (sectionTableOffset : Int)).fdiv
    (offsetWordSize : Int) - 1).toNat
  let mid := readWords data offsetWordSize pos2 count
  mtxStringsLoop data (stringTableOffset :: (mid ++ [mtxLength]))
    (pos2 + offsetWordSize * count)

/-- `Mtx.decode`: read the leading u32 length field, check that the
physical size is a multiple of it, then detect the offset width from the
identifier (`8` read as u32 for 32-bit offsets, `16` read as u64 for
64-bit offsets) and read the section and string tables. -/
def mtxDecode (data : List Nat) : Except MtxErr (List (List Nat)) :=
  let mtxLength := readWord data 0 4
  if mtxLength = 0 then .error .zeroDivisionError
  else if data.length % mtxLength ≠ 0 then .error .sizeError
  else
    let identifier := readWord data 4 4
    if identifier = 8 then
      .ok (mtxDecodeBody data mtxLength 4 8)
    else if identifier = readWord data 4 8 ∧ readWord data 4 8 = 16 then
      .ok (mtxDecodeBody data mtxLength 8 12)
    else .error .formatError

/-- A valid 18-byte mtx stream holding the single string `[65]`. -/
def mtxExample18 : List Nat :=
  [18, 0, 0, 0, 8, 0, 0, 0, 12, 0, 0, 0, 16, 0, 0, 0, 65, 0]

/-- One rendered `text` node of `Mtx.write_xml`: the accumulated character
data of the node and the number of contentless `arrow` child elements
appended to it. -/
structure MtxTextNode where
  text : PyStr
  arrows : Nat
deriving Repr, DecidableEq

/-- The per-string loop of `Mtx.write_xml`, with the string buffer and the
appended arrow elements as accumulators.  The font stands for
`font.__getitem__`, the index-to-string resolution of the supplied
character table, taken here as a total function. -/
def renderMtxStringLoop (font : Nat → PyStr) :
    List Nat → PyStr → Nat → MtxTextNode
  | [], buf, arrows => ⟨buf, arrows⟩
  | c :: rest, buf, arrows =>
      if c = 0xF813 then renderMtxStringLoop font rest buf (arrows + 1)
      else if c = 0xF883 then
        renderMtxStringLoop font rest (buf ++ s2c "0xF883") arrows
      else if c = 0xFFFD then
        renderMtxStringLoop font rest (buf ++ [10]) arrows
      else if c = 0xFFFF then ⟨buf, arrows⟩
      else renderMtxStringLoop font rest (buf ++ font c) arrows

/-- Rendering one mtx string to its `text` node. -/
def renderMtxString (font : Nat → PyStr) (s : List Nat) : MtxTextNode :=
  renderMtxStringLoop font s [] 0

/-- `Mtx.write_xml`: one `text` node per input string, in input order. -/
def mtxWriteXml (font : Nat → PyStr) (strings : List (List Nat)) :
    List MtxTextNode :=
  strings.map (renderMtxString font)

/-- `value.to_bytes(width, "little")`: `OverflowError` (here `none`) when
the value does not fit the field. -/
def mtxWriteBytes (value width : Nat) : Option (List Nat) :=
  if value < 256 ^ width then some (toBytesLE width value) else none

/-- The sequence of `write_bytes` calls of `Mtx.encode`; the first overflow
aborts the encode. -/
def writeAllWords : List (Nat × Nat) → Option (List Nat)
  | [] => some []
  | vw :: rest =>
      match mtxWriteBytes vw.1 vw.2 with
      | none => none
      | some bs => (writeAllWords rest).map (bs ++ ·)

/-- The offset-accumulation loop of `Mtx.encode` (append the running
length, then add the string length), written as a recursion over the
string lengths; returns the offsets and the final `mtx_length`. -/
def mtxOffsetsGo : List Nat → Nat → List Nat × Nat
  | [], acc => ([], acc)
  | L :: rest, acc =>
      let r := mtxOffsetsGo rest (acc + L)
      (acc :: r.1, r.2)

/-- `Mtx.encode` with 32-bit offsets (`offset_size = 32`): the final
length, the identifier `8`, the header length `12`, one 32-bit offset per
string, then the 16-bit characters of every string in order. -/
def mtxEncode32 (strings : List (List Nat)) : Option (List Nat) :=
  let headerLength := 12
  let stringLengths := strings.map fun s => 2 * s.length
  let offs := mtxOffsetsGo stringLengths (headerLength + 4 * strings.length)
  writeAllWords (((offs.2, 4) :: (8, 4) :: (headerLength, 4) ::
    offs.1.map fun o => (o, 4)) ++ strings.flatten.map fun c => (c, 2))

/-- The offsets produced by the loop, followed by the final length, differ
consecutively by exactly the string lengths. -/
def OffsetsDelta : List Nat → List Nat → Prop
  | [_], [] => True
  | a :: b :: rest, L :: Ls => b = a + L ∧ OffsetsDelta (b :: rest) Ls
  | _, _ => False

theorem chunkListAux_nil (w : Nat) (fuel : Nat) :
    chunkListAux w fuel ([] : List α) = [] := by
  cases fuel <;> rfl

theorem chunkListAux_fuel (w : Nat) (hw : w ≠ 0) :
    ∀ (f1 f2 : Nat) (l : List α), l.length ≤ f1 → l.length ≤ f2 →
      chunkListAux w f1 l = chunkListAux w f2 l := by
  intro f1
  induction f1 with
  | zero =>
      intro f2 l h1 _
      have : l = [] := List.eq_nil_of_length_eq_zero (by omega)
      subst this
      rw [chunkListAux_nil, chunkListAux_nil]
  | succ f1 ih =>
      intro f2 l h1 h2
      cases l with
      | nil => rw [chunkListAux_nil, chunkListAux_nil]
      | cons a l =>
          obtain ⟨f2, rfl⟩ : ∃ k, f2 = k + 1 := ⟨f2 - 1, by simp at h2; omega⟩
          have hw1 : 1 ≤ w := Nat.pos_of_ne_zero hw
          simp only [chunkListAux]
          congr 1
          apply ih
          · rw [List.length_drop]
            simp only [List.length_cons] at h1 ⊢
            omega
          · rw [List.length_drop]
            simp only [List.length_cons] at h2 ⊢
            omega

theorem fromBytesLE_toBytesLE (w v : Nat) (h : v < 256 ^ w) :
    fromBytesLE (toBytesLE w v) = v := by
  induction w generalizing v with
  | zero => simp [toBytesLE, fromBytesLE]; omega
  | succ n ih =>
      simp only [toBytesLE, fromBytesLE]
      rw [ih]
      · omega
      · have : 256 ^ (n + 1) = 256 ^ n * 256 := by ring
        omega

theorem toBytesLE_length (w v : Nat) : (toBytesLE w v).length = w := by
  induction w generalizing v with
  | zero => simp [toBytesLE]
  | succ n ih => simp [toBytesLE, ih]

theorem toBytesLE_lt (w v : Nat) : ∀ b ∈ toBytesLE w v, b < 256 := by
  induction w generalizing v with
  | zero => simp [toBytesLE]
  | succ n ih =>
      simp only [toBytesLE, List.mem_cons, forall_eq_or_imp]
      exact ⟨Nat.mod_lt _ (by norm_num), ih _⟩

theorem chunkList_nil (w : Nat) : chunkList ([] : List α) w = [] := by
  rw [chunkList]
  split
  · rfl
  · rw [chunkListAux_nil]

theorem chunkList_zero (l : List α) : chunkList l 0 = [] := by
  rw [chunkList]; simp

theorem chunkList_cons (l : List α) (w : Nat) (hl : l ≠ []) (hw : w ≠ 0) :
    chunkList l w = l.take w :: chunkList (l.drop w) w := by
  obtain ⟨a, l, rfl⟩ : ∃ a t, l = a :: t := by
    cases l with
    | nil => exact absurd rfl hl
    | cons a t => exact ⟨a, t, rfl⟩
  rw [chunkList, chunkList, if_neg hw, if_neg hw]
  simp only [List.length_cons, chunkListAux]
  congr 1
  have hw1 : 1 ≤ w := Nat.pos_of_ne_zero hw
  apply chunkListAux_fuel w hw
  · rw [List.length_drop]
    simp only [List.length_cons]
    omega
  · exact le_rfl

theorem chunkList_flatten_aux (w : Nat) (hw : w ≠ 0) :
    ∀ (n : Nat) (l : List α), l.length ≤ n → l.length % w = 0 →
      (chunkList l w).flatten = l := by
  intro n
  induction n with
  | zero =>
      intro l hn _
      have : l = [] := List.eq_nil_of_length_eq_zero (by omega)
      subst this; simp [chunkList_nil]
  | succ n ih =>
      intro l hn hmod
      rcases eq_or_ne l [] with hnil | hl
      · subst hnil; simp [chunkList_nil]
      · rw [chunkList_cons l w hl hw]
        have hlen : 0 < l.length := List.length_pos.mpr hl
        have hwle : w ≤ l.length := by
          rcases Nat.lt_or_ge l.length w with hlt | hge
          · exfalso; rw [Nat.mod_eq_of_lt hlt] at hmod; omega
          · exact hge
        have hdrop : (l.drop w).length = l.length - w := List.length_drop w l
        have hw0 : 0 < w := Nat.pos_of_ne_zero hw
        obtain ⟨k, hk⟩ := Nat.dvd_of_mod_eq_zero hmod
        rcases k with _ | m
        · omega
        · have hsub : l.length - w = w * m := by rw [hk]; ring_nf; omega
          simp only [List.flatten_cons]
          rw [ih (l.drop w) (by omega)
            (by rw [hdrop, hsub]; exact Nat.mul_mod_right w m)]
          exact List.take_append_drop w l

/-- Chunking a list whose length is an exact multiple of `w ≠ 0` and
flattening back is the identity. -/
theorem chunkList_flatten (w : Nat) (hw : w ≠ 0) (l : List α)
    (hmod : l.length % w = 0) : (chunkList l w).flatten = l :=
  chunkList_flatten_aux w hw l.length l le_rfl hmod

theorem chunkList_length_aux (w : Nat) (hw : w ≠ 0) :
    ∀ (n : Nat) (l : List α), l.length ≤ n → l.length % w = 0 →
      (chunkList l w).length = l.length / w := by
  intro n
  induction n with
  | zero =>
      intro l hn _
      have : l = [] := List.eq_nil_of_length_eq_zero (by omega)
      subst this; simp [chunkList_nil]
  | succ n ih =>
      intro l hn hmod
      rcases eq_or_ne l [] with hnil | hl
      · subst hnil; simp [chunkList_nil]
      · rw [chunkList_cons l w hl hw]
        have hlen : 0 < l.length := List.length_pos.mpr hl
        have hwle : w ≤ l.length := by
          rcases Nat.lt_or_ge l.length w with hlt | hge
          · exfalso; rw [Nat.mod_eq_of_lt hlt] at hmod; omega
          · exact hge
        have hdrop : (l.drop w).length = l.length - w := List.length_drop w l
        have hw0 : 0 < w := Nat.pos_of_ne_zero hw
        obtain ⟨k, hk⟩ := Nat.dvd_of_mod_eq_zero hmod
        rcases k with _ | m
        · omega
        · have hsub : l.length - w = w * m := by rw [hk]; ring_nf; omega
          simp only [List.length_cons]
          rw [ih (l.drop w) (by omega)
            (by rw [hdrop, hsub]; exact Nat.mul_mod_right w m)]
          rw [hdrop, hsub, hk, Nat.mul_div_cancel_left m hw0]
          rw [Nat.mul_succ, Nat.add_div_right _ hw0, Nat.mul_div_cancel_left m hw0]

/-- The number of chunks of a list whose length is an exact multiple of
`w ≠ 0`. -/
theorem chunkList_length (w : Nat) (hw : w ≠ 0) (l : List α)
    (hmod : l.length % w = 0) : (chunkList l w).length = l.length / w :=
  chunkList_length_aux w hw l.length l le_rfl hmod

theorem chunkList_get (w : Nat) (hw : w ≠ 0) :
    ∀ (k : Nat) (l : List α), w * (k + 1) ≤ l.length →
      (chunkList l w).get? k = some ((l.drop (w * k)).take w) := by
  intro k
  induction k with
  | zero =>
      intro l hk
      have hl : l ≠ [] := by
        intro h; subst h; simp at hk; omega
      rw [chunkList_cons l w hl hw]
      simp
  | succ k ih =>
      intro l hk
      have hl : l ≠ [] := by
        intro h; subst h; simp at hk
        have : 0 < w := Nat.pos_of_ne_zero hw
        nlinarith
      rw [chunkList_cons l w hl hw]
      simp only [List.get?_cons_succ]
      have harith : w * (k + 1 + 1) = w * (k + 1) + w := Nat.mul_succ w (k + 1)
      rw [ih (l.drop w) (by simp only [List.length_drop]; omega)]
      rw [List.drop_drop, Nat.mul_succ, Nat.add_comm (w * k) w]

theorem pyFindIdx_eq_some (p : α → Bool) :
    ∀ (l : List α) (i : Nat), pyFindIdx p l = some i →
      ∃ a, l.get? i = some a ∧ p a = true := by
  intro l
  induction l with
  | nil => intro i h; simp [pyFindIdx] at h
  | cons a l ih =>
      intro i h
      by_cases hp : p a
      · simp [pyFindIdx, hp] at h
        subst h
        exact ⟨a, rfl, hp⟩
      · simp [pyFindIdx, hp] at h
        obtain ⟨j, hj, rfl⟩ := h
        obtain ⟨b, hb, hpb⟩ := ih j hj
        exact ⟨b, by simpa using hb, hpb⟩

theorem pyFindIdx_lt_length (p : α → Bool) (l : List α) (i : Nat)
    (h : pyFindIdx p l = some i) : i < l.length := by
  obtain ⟨a, ha, _⟩ := pyFindIdx_eq_some p l i h
  exact List.get?_eq_some.mp ha |>.1

theorem pyFindIdx_append (p : α → Bool) :
    ∀ (l1 l2 : List α), pyFindIdx p (l1 ++ l2) =
      match pyFindIdx p l1 with
      | some i => some i
      | none => (pyFindIdx p l2).map (· + l1.length) := by
  intro l1
  induction l1 with
  | nil => intro l2; simp [pyFindIdx]
  | cons a l ih =>
      intro l2
      by_cases hp : p a
      · simp [pyFindIdx, hp]
      · simp only [List.cons_append, pyFindIdx, hp, Bool.false_eq_true,
          if_false]
        simp only [List.append_eq]
        rw [ih l2]
        cases h1 : pyFindIdx p l with
        | some i => simp
        | none =>
            cases h2 : pyFindIdx p l2 with
            | none => simp
            | some j =>
                simp only [Option.map_some, Option.map_map, List.length_cons]
                congr 1

theorem fpdWalkAliasers_sound (records : List (Nat × Nat)) (t : FpdTable)
    (h : FpdTracks records t) :
    ∀ (fuel j : Nat), j < t.length →
      fpdWalkAliasers t fuel j < t.length ∧
      cpAt records (fpdWalkAliasers t fuel j) = cpAt records j := by
  intro fuel
  induction fuel with
  | zero => intro j hj; exact ⟨hj, rfl⟩
  | succ fuel ih =>
      intro j hj
      simp only [fpdWalkAliasers]
      cases hfind : pyFindIdx (fpdValMatchesIdx j) t with
      | none => exact ⟨hj, rfl⟩
      | some k =>
          obtain ⟨v, hv, hmatch⟩ := pyFindIdx_eq_some _ t k hfind
          have hk : k < t.length := pyFindIdx_lt_length _ t k hfind
          cases v with
          | chr c => simp [fpdValMatchesIdx] at hmatch
          | aliasIdx j2 =>
              simp only [fpdValMatchesIdx, beq_iff_eq] at hmatch
              rw [hmatch] at hv
              obtain ⟨-, hcp⟩ := h.2.2 k j hv
              obtain ⟨hlt, hcp2⟩ := ih k hk
              exact ⟨hlt, by rw [hcp2, hcp]⟩

theorem resolveFpdValue_chr (t : FpdTable) (fuel : Nat) (c : FpdCharacter) :
    resolveFpdValue t fuel (.chr c) = some c := by
  cases fuel <;> rfl

theorem resolveFpdValue_mono (t : FpdTable) :
    ∀ (f1 f2 : Nat) (v : FpdVal) (c : FpdCharacter), f1 ≤ f2 →
      resolveFpdValue t f1 v = some c → resolveFpdValue t f2 v = some c := by
  intro f1
  induction f1 with
  | zero =>
      intro f2 v c _ hres
      cases v with
      | chr c2 => rw [resolveFpdValue_chr] at hres ⊢; exact hres
      | aliasIdx j => simp [resolveFpdValue] at hres
  | succ f1 ih =>
      intro f2 v c hle hres
      cases v with
      | chr c2 => rw [resolveFpdValue_chr] at hres ⊢; exact hres
      | aliasIdx j =>
          obtain ⟨f2, rfl⟩ : ∃ k, f2 = k + 1 :=
            ⟨f2 - 1, by omega⟩
          simp only [resolveFpdValue] at hres ⊢
          cases hget : t.get? j with
          | none => rw [hget] at hres; exact absurd hres (by simp)
          | some v2 =>
              rw [hget] at hres
              exact ih f2 v2 c (by omega) hres

/-- On a table satisfying the construction invariant, every index resolves
(with fuel `index + 1`) to a concrete character that carries the index's
own code point and the width of some record with the same code point. -/
theorem fpdTracks_resolve (records : List (Nat × Nat)) (t : FpdTable)
    (h : FpdTracks records t) :
    ∀ (i : Nat) (r : Nat × Nat), records.get? i = some r →
      ∃ rj, rj ∈ records ∧ rj.1 = r.1 ∧
        resolveFpdEntry t (i + 1) i = some ⟨[r.1], rj.2⟩ := by
  intro i
  induction i using Nat.strong_induction_on with
  | _ i ih =>
      intro r hr
      have hilen : i < t.length := by
        rw [h.1]
        exact List.get?_eq_some.mp hr |>.1
      obtain ⟨v, hv⟩ : ∃ v, t.get? i = some v := by
        cases hg : t.get? i with
        | none =>
            exfalso
            rw [List.get?_eq_none] at hg
            omega
        | some v => exact ⟨v, rfl⟩
      cases v with
      | chr c =>
          obtain ⟨r2, hr2, rfl⟩ := h.2.1 i c hv
          rw [hr] at hr2
          injection hr2 with hr2
          subst hr2
          refine ⟨r, List.get?_mem hr, rfl, ?_⟩
          simp only [resolveFpdEntry, hv, Option.bind_some]
          exact resolveFpdValue_chr t (i + 1) ⟨[r.1], r.2⟩
      | aliasIdx j =>
          obtain ⟨hji, hcp⟩ := h.2.2 i j hv
          have hcpi : cpAt records i = some r.1 := by
            simp only [cpAt]
            rw [hr]
            rfl
          rw [hcpi] at hcp
          obtain ⟨rj0, hrj0⟩ : ∃ rj0, records.get? j = some rj0 := by
            cases hg : records.get? j with
            | none =>
                simp only [cpAt, hg, Option.map_none] at hcp
                exact absurd hcp (by simp)
            | some rj0 => exact ⟨rj0, rfl⟩
          have hrj0cp : rj0.1 = r.1 := by
            simp only [cpAt, hrj0, Option.map_some] at hcp
            simpa using hcp
          obtain ⟨rj, hrjmem, hrjcp, hres⟩ := ih j hji rj0 hrj0
          refine ⟨rj, hrjmem, by rw [hrjcp, hrj0cp], ?_⟩
          simp only [resolveFpdEntry] at hres ⊢
          rw [hv]
          obtain ⟨v2, hg⟩ : ∃ v2, t.get? j = some v2 := by
            cases hg : t.get? j with
            | none => rw [hg] at hres; exact absurd hres (by simp)
            | some v2 => exact ⟨v2, rfl⟩
          rw [hg] at hres
          have hres2 : resolveFpdValue t (j + 1) v2
              = some ⟨[rj0.1], rj.2⟩ := hres
          have hmono := resolveFpdValue_mono t (j + 1) i v2 _ (by omega) hres2
          show resolveFpdValue t (i + 1) (FpdVal.aliasIdx j)
            = some ⟨[r.1], rj.2⟩
          have hstep : resolveFpdValue t (i + 1) (FpdVal.aliasIdx j)
              = resolveFpdValue t i v2 := by
            show (match t.get? j with
              | none => none
              | some v => resolveFpdValue t i v) = resolveFpdValue t i v2
            rw [hg]
          rw [hstep, ← hrj0cp]
          exact hmono

theorem cpAt_append (rs : List (Nat × Nat)) (r : Nat × Nat) (j : Nat)
    (hj : j < rs.length) : cpAt (rs ++ [r]) j = cpAt rs j := by
  simp only [cpAt, List.get?_append hj]

theorem cpAt_concat_length (rs : List (Nat × Nat)) (r : Nat × Nat) :
    cpAt (rs ++ [r]) rs.length = some r.1 := by
  simp only [cpAt, List.get?_concat_length]
  rfl

/-- The decode loop maintains the construction invariant: each record adds
one value, concrete entries carry their record, aliases point strictly
earlier and preserve the code point. -/
theorem buildFpdTable_tracks (records : List (Nat × Nat)) :
    FpdTracks records (buildFpdTable records) := by
  induction records using List.reverseRecOn with
  | nil =>
      refine ⟨rfl, ?_, ?_⟩
      · intro i c hc; simp [buildFpdTable] at hc
      · intro i j hj; simp [buildFpdTable] at hj
  | append_singleton rs r ih =>
      have hbuild : buildFpdTable (rs ++ [r])
          = fpdDecodeStep (buildFpdTable rs) r := by
        simp [buildFpdTable, List.foldl_append]
      obtain ⟨h1, h2, h3⟩ := ih
      rw [hbuild]
      have hgetlt : ∀ (x : FpdVal) (i : Nat), i < (buildFpdTable rs).length →
          ((buildFpdTable rs) ++ [x]).get? i = (buildFpdTable rs).get? i :=
        fun x i hi => List.get?_append hi
      have hgetgt : ∀ (x : FpdVal) (i : Nat), (buildFpdTable rs).length < i →
          ((buildFpdTable rs) ++ [x]).get? i = none := by
        intro x i hi
        rw [List.get?_eq_none]
        simp only [List.length_append, List.length_singleton]
        omega
      have hreclt : ∀ i : Nat, i < rs.length →
          (rs ++ [r]).get? i = rs.get? i :=
        fun i hi => List.get?_append hi
      simp only [fpdDecodeStep]
      cases hfind : pyFindIdx (fpdValMatchesChar ⟨[r.1], r.2⟩)
          (buildFpdTable rs) with
      | none =>
          refine ⟨by simp [h1], ?_, ?_⟩
          · intro i c hc
            rcases Nat.lt_trichotomy i (buildFpdTable rs).length with hi | hi | hi
            · rw [hgetlt _ i hi] at hc
              obtain ⟨r0, hr0, hr0c⟩ := h2 i c hc
              exact ⟨r0, by rw [hreclt i (by omega)]; exact hr0, hr0c⟩
            · rw [hi, List.get?_concat_length] at hc
              injection hc with hc
              injection hc with hc
              refine ⟨r, ?_, hc.symm⟩
              rw [hi, h1]
              exact List.get?_concat_length rs r
            · rw [hgetgt _ i hi] at hc
              exact absurd hc (by simp)
          · intro i j hj
            rcases Nat.lt_trichotomy i (buildFpdTable rs).length with hi | hi | hi
            · rw [hgetlt _ i hi] at hj
              obtain ⟨hlt, hcp⟩ := h3 i j hj
              refine ⟨hlt, ?_⟩
              rw [cpAt_append rs r j (by omega), cpAt_append rs r i (by omega)]
              exact hcp
            · rw [hi, List.get?_concat_length] at hj
              exact absurd hj (by simp)
            · rw [hgetgt _ i hi] at hj
              exact absurd hj (by simp)
      | some i0 =>
          obtain ⟨v, hv, hvmatch⟩ := pyFindIdx_eq_some _ _ i0 hfind
          have hi0 : i0 < (buildFpdTable rs).length :=
            pyFindIdx_lt_length _ _ i0 hfind
          obtain ⟨c0, rfl⟩ : ∃ c0, v = FpdVal.chr c0 := by
            cases v with
            | chr c0 => exact ⟨c0, rfl⟩
            | aliasIdx j2 => simp [fpdValMatchesChar] at hvmatch
          have hc0char : c0.character = [r.1] := by
            simpa [fpdValMatchesChar, fpdCharEq] using hvmatch
          obtain ⟨r0, hr0, hr0c⟩ := h2 i0 c0 hv
          have hr0cp : r0.1 = r.1 := by
            rw [hr0c] at hc0char
            injection hc0char
          have hcpi0 : cpAt rs i0 = some r.1 := by
            simp only [cpAt]
            rw [hr0]
            simp [hr0cp]
          obtain ⟨hklt, hkcp⟩ := fpdWalkAliasers_sound rs (buildFpdTable rs)
            ⟨h1, h2, h3⟩ (buildFpdTable rs).length i0 hi0
          set k := fpdWalkAliasers (buildFpdTable rs)
            (buildFpdTable rs).length i0 with hk
          have hkcp2 : cpAt rs k = some r.1 := by rw [hkcp, hcpi0]
          refine ⟨by simp [h1], ?_, ?_⟩
          · intro i c hc
            rcases Nat.lt_trichotomy i (buildFpdTable rs).length with hi | hi | hi
            · rw [hgetlt _ i hi] at hc
              obtain ⟨r1, hr1, hr1c⟩ := h2 i c hc
              exact ⟨r1, by rw [hreclt i (by omega)]; exact hr1, hr1c⟩
            · rw [hi, List.get?_concat_length] at hc
              exact absurd hc (by simp)
            · rw [hgetgt _ i hi] at hc
              exact absurd hc (by simp)
          · intro i j hj
            rcases Nat.lt_trichotomy i (buildFpdTable rs).length with hi | hi | hi
            · rw [hgetlt _ i hi] at hj
              obtain ⟨hlt, hcp⟩ := h3 i j hj
              refine ⟨hlt, ?_⟩
              rw [cpAt_append rs r j (by omega), cpAt_append rs r i (by omega)]
              exact hcp
            · rw [hi, List.get?_concat_length] at hj
              injection hj with hj
              injection hj with hj
              subst hj
              refine ⟨by omega, ?_⟩
              rw [cpAt_append rs r k (by omega), hi, h1,
                cpAt_concat_length rs r]
              exact hkcp2
            · rw [hgetgt _ i hi] at hj
              exact absurd hj (by simp)

theorem fpdDecode_ok (data : List Nat) (t : FpdTable)
    (h : fpdDecode data = .ok t) :
    data.length % 3 = 0 ∧ t = buildFpdTable (fpdRecords data) := by
  simp only [fpdDecode] at h
  split at h
  · exact absurd h (by simp)
  · injection h with h
    exact ⟨by omega, h.symm⟩

/-- C8: in a table built by `Fpd.decode`, every alias link points to an
index created strictly earlier in the same pass, and resolving index `i`
terminates at a concrete entry within `i + 1` lookups, so alias chains are
finite and acyclic and resolution never loops. -/
theorem fpd_alias_resolution (data : List Nat) (t : FpdTable)
    (h : fpdDecode data = .ok t) :
    (∀ i j, t.get? i = some (.aliasIdx j) → j < i) ∧
    (∀ i, i < t.length → (resolveFpdEntry t (i + 1) i).isSome = true) := by
  obtain ⟨hlen, rfl⟩ := fpdDecode_ok data t h
  have htr := buildFpdTable_tracks (fpdRecords data)
  constructor
  · intro i j hj
    exact (htr.2.2 i j hj).1
  · intro i hi
    have hlen2 : i < (fpdRecords data).length := by rw [← htr.1]; exact hi
    obtain ⟨r, hr⟩ : ∃ r, (fpdRecords data).get? i = some r := by
      cases hg : (fpdRecords data).get? i with
      | none =>
          exfalso
          rw [List.get?_eq_none] at hg
          omega
      | some r => exact ⟨r, rfl⟩
    obtain ⟨rj, -, -, hres⟩ :=
      fpdTracks_resolve (fpdRecords data) _ htr i r hr
    rw [hres]
    rfl

/-- Witness for C8 at the concrete stream `41 00 05  41 00 07  42 00 01`:
the duplicated character aliases index 0 and every index resolves. -/
theorem fpd_alias_resolution_witness :
    (∀ i j,
      ([FpdVal.chr ⟨[65], 5⟩, FpdVal.aliasIdx 0, FpdVal.chr ⟨[66], 1⟩]
        : FpdTable).get? i = some (.aliasIdx j) → j < i) ∧
    (∀ i, i < ([FpdVal.chr ⟨[65], 5⟩, FpdVal.aliasIdx 0,
        FpdVal.chr ⟨[66], 1⟩] : FpdTable).length →
      (resolveFpdEntry [FpdVal.chr ⟨[65], 5⟩, FpdVal.aliasIdx 0,
        FpdVal.chr ⟨[66], 1⟩] (i + 1) i).isSome = true) :=
  fpd_alias_resolution [65, 0, 5, 65, 0, 7, 66, 0, 1]
    [FpdVal.chr ⟨[65], 5⟩, FpdVal.aliasIdx 0, FpdVal.chr ⟨[66], 1⟩]
    (by rfl)

/-- C5 is falsified by the source: `width` is declared `eq=False`, so two
records with the same character and different widths are identified — the
stream `41 00 05  41 00 07` decodes to an alias, not two distinct entries,
and the two entries compare equal. -/
theorem fpd_identity_width_counterexample :
    fpdDecode [65, 0, 5, 65, 0, 7]
      = .ok [FpdVal.chr ⟨[65], 5⟩, FpdVal.aliasIdx 0] ∧
    fpdCharEq ⟨[65], 5⟩ ⟨[65], 7⟩ = true ∧
    fpdGetIndex [FpdVal.chr ⟨[65], 5⟩, FpdVal.aliasIdx 0] [65] = some 0 := by
  refine ⟨by rfl, by decide, by decide⟩

/-- C5 (amended): `FpdCharacter` identity is defined by the character
alone — `width` is excluded from equality (`eq=False`) and fpd entries
carry no graphic; inverse lookup (`get_index`) therefore matches on the
character and ignores the probe's width entirely. -/
theorem fpd_identity_by_character :
    (∀ c1 c2 : FpdCharacter,
      fpdCharEq c1 c2 = true ↔ c1.character = c2.character) ∧
    (∀ (t : FpdTable) (s : PyStr) (w : Nat),
      pyFindIdx (fpdValMatchesChar ⟨s, w⟩) t = fpdGetIndex t s) := by
  constructor
  · intro c1 c2
    simp [fpdCharEq]
  · intro t s w
    simp only [fpdGetIndex]
    congr 1

theorem fpdRecords_length (data : List Nat) (hlen : data.length % 3 = 0) :
    (fpdRecords data).length = data.length / 3 := by
  simp [fpdRecords, chunkList_length 3 (by norm_num) data hlen]

theorem fpdRecords_get (data : List Nat) (k : Nat)
    (h3 : 3 * (k + 1) ≤ data.length) :
    (fpdRecords data).get? k
      = some (((data.drop (3 * k)).take 3).getD 0 0
          + 256 * ((data.drop (3 * k)).take 3).getD 1 0,
          ((data.drop (3 * k)).take 3).getD 2 0) := by
  simp only [fpdRecords, List.get?_map,
    chunkList_get 3 (by norm_num) k data h3]
  rfl

theorem list_eq_three (l : List Nat) (h : l.length = 3) :
    l = [l.getD 0 0, l.getD 1 0, l.getD 2 0] := by
  rcases l with - | ⟨a, - | ⟨b, - | ⟨c, - | ⟨d, l⟩⟩⟩⟩ <;> simp_all

theorem fpd_roundtrip_aux (data : List Nat)
    (hlen : data.length % 3 = 0)
    (hbytes : ∀ b ∈ data, b < 256)
    (hconsist : ∀ r1 ∈ fpdRecords data, ∀ r2 ∈ fpdRecords data,
      r1.1 = r2.1 → r1.2 = r2.2) :
    ∀ m : Nat,
      fpdEncodeGo (buildFpdTable (fpdRecords data))
        ((buildFpdTable (fpdRecords data)).drop
          ((buildFpdTable (fpdRecords data)).length - m))
        = .ok (data.drop
          (3 * ((buildFpdTable (fpdRecords data)).length - m))) := by
  have htr := buildFpdTable_tracks (fpdRecords data)
  set t := buildFpdTable (fpdRecords data) with ht
  set n := t.length with hn
  have hrlen : (fpdRecords data).length = data.length / 3 :=
    fpdRecords_length data hlen
  have h3n : 3 * n = data.length := by
    rw [hn, htr.1, hrlen]
    omega
  intro m
  induction m with
  | zero =>
      simp only [Nat.sub_zero]
      rw [List.drop_length, h3n, List.drop_length]
      rfl
  | succ m ih =>
      by_cases hm : n ≤ m
      · have heq : n - (m + 1) = n - m := by omega
        rw [heq]
        exact ih
      · have hk : n - (m + 1) < n := by omega
        set k := n - (m + 1) with hkdef
        have hk1 : n - m = k + 1 := by omega
        have hklt : k < t.length := hk
        have hkrec : k < (fpdRecords data).length := by
          rw [← htr.1]
          exact hk
        have hk3 : 3 * (k + 1) ≤ data.length := by
          rw [← h3n]
          omega
        -- the k-th record and its 3-byte chunk
        have hr : (fpdRecords data).get? k
            = some (((data.drop (3 * k)).take 3).getD 0 0
                + 256 * ((data.drop (3 * k)).take 3).getD 1 0,
                ((data.drop (3 * k)).take 3).getD 2 0) :=
          fpdRecords_get data k hk3
        set chunk := (data.drop (3 * k)).take 3 with hchunk
        set r : Nat × Nat :=
          (chunk.getD 0 0 + 256 * chunk.getD 1 0, chunk.getD 2 0) with hrdef
        have hchunklen : chunk.length = 3 := by
          rw [hchunk, List.length_take, List.length_drop]
          omega
        have hchunkeq : chunk = [chunk.getD 0 0, chunk.getD 1 0,
            chunk.getD 2 0] := list_eq_three chunk hchunklen
        have hchunkmem : ∀ b ∈ chunk, b < 256 := by
          intro b hb
          apply hbytes
          have hsub : chunk.Sublist data :=
            (List.take_sublist 3 (data.drop (3 * k))).trans
              (List.drop_sublist (3 * k) data)
          exact hsub.subset hb
        have hb0 : chunk.getD 0 0 < 256 := by
          apply hchunkmem
          rw [hchunkeq]
          simp
        have hb1 : chunk.getD 1 0 < 256 := by
          apply hchunkmem
          rw [hchunkeq]
          simp
        have hb2 : chunk.getD 2 0 < 256 := by
          apply hchunkmem
          rw [hchunkeq]
          simp
        -- resolution of index k
        obtain ⟨rj, hrjmem, hrjcp, hres⟩ :=
          fpdTracks_resolve (fpdRecords data) t htr k r hr
        have hrjw : rj.2 = r.2 :=
          hconsist rj hrjmem r (List.get?_mem hr) hrjcp
        obtain ⟨v, hv⟩ : ∃ v, t.get? k = some v := by
          cases hg : t.get? k with
          | none =>
              exfalso
              rw [List.get?_eq_none] at hg
              omega
          | some v => exact ⟨v, rfl⟩
        have hresv : resolveFpdValue t (k + 1) v = some ⟨[r.1], r.2⟩ := by
          simp only [resolveFpdEntry, hv, Option.some_bind] at hres
          rw [hrjw] at hres
          exact hres
        have hresv2 : resolveFpdValue t t.length v = some ⟨[r.1], r.2⟩ :=
          resolveFpdValue_mono t (k + 1) t.length v _ (by omega) hresv
        -- peel one element off the suffix
        have hdropk : t.drop k = v :: t.drop (k + 1) := by
          rw [List.drop_eq_get_cons hklt]
          congr 1
          have := List.get?_eq_get hklt
          rw [hv] at this
          injection this with this
          exact this.symm
        rw [hdropk]
        simp only [fpdEncodeGo, hresv2]
        have hsingle : fpdCharacterSingle ⟨[r.1], r.2⟩ = true := by
          simp [fpdCharacterSingle]
        rw [hsingle]
        simp only [if_true]
        have hencc : fpdCharacterEncode ⟨[r.1], r.2⟩
            = some [r.1 % 256, r.1 / 256, r.2] := by
          simp only [fpdCharacterEncode]
          rw [if_pos]
          exact ⟨by omega, by omega⟩
        rw [hencc]
        rw [hk1] at ih
        rw [ih]
        show Except.ok ([r.1 % 256, r.1 / 256, r.2]
            ++ data.drop (3 * (k + 1)))
          = Except.ok (data.drop (3 * k))
        congr 1
        have hr1 : r.1 = chunk.getD 0 0 + 256 * chunk.getD 1 0 := by
          rw [hrdef]
        have hr2 : r.2 = chunk.getD 2 0 := by
          rw [hrdef]
        have hbs : [r.1 % 256, r.1 / 256, r.2] = chunk := by
          rw [hchunkeq]
          have e0 : r.1 % 256 = chunk.getD 0 0 := by rw [hr1]; omega
          have e1 : r.1 / 256 = chunk.getD 1 0 := by rw [hr1]; omega
          rw [e0, e1, hr2]
        rw [hbs]
        have hsplit : chunk ++ (data.drop (3 * k)).drop 3
            = data.drop (3 * k) := by
          rw [hchunk]
          exact List.take_append_drop 3 (data.drop (3 * k))
        rw [List.drop_drop] at hsplit
        have hidx : 3 * (k + 1) = 3 * k + 3 := by omega
        rw [hidx]
        exact hsplit

/-- C3: decoding a valid format-B byte string (length a multiple of 3) and
re-encoding the resulting table reproduces the original bytes exactly,
provided no aliasing loses information, i.e. records sharing a code point
share a width; exact duplicate records re-serialize as the same duplicated
3-byte records through their alias links. -/
theorem fpd_binary_roundtrip (data : List Nat)
    (hlen : data.length % 3 = 0)
    (hbytes : ∀ b ∈ data, b < 256)
    (hconsist : ∀ r1 ∈ fpdRecords data, ∀ r2 ∈ fpdRecords data,
      r1.1 = r2.1 → r1.2 = r2.2) :
    ∃ t, fpdDecode data = .ok t ∧ fpdEncode t = .ok data := by
  refine ⟨buildFpdTable (fpdRecords data), ?_, ?_⟩
  · simp only [fpdDecode]
    rw [if_neg (by omega)]
  · have haux := fpd_roundtrip_aux data hlen hbytes hconsist
      (buildFpdTable (fpdRecords data)).length
    rw [Nat.sub_self] at haux
    simp only [List.drop_zero, Nat.mul_zero] at haux
    exact haux

/-- Witness for C3 at the concrete stream
`41 00 05  41 00 05  42 00 07` (an exact duplicate record). -/
theorem fpd_binary_roundtrip_witness :
    ∃ t, fpdDecode [65, 0, 5, 65, 0, 5, 66, 0, 7] = .ok t ∧
      fpdEncode t = .ok [65, 0, 5, 65, 0, 5, 66, 0, 7] :=
  fpd_binary_roundtrip [65, 0, 5, 65, 0, 5, 66, 0, 7]
    (by decide) (by decide) (by decide)

theorem fpdWfB_iff (t : FpdTable) :
    fpdWfB t = true ↔ ∀ i j, t.get? i = some (.aliasIdx j) → j < i := by
  rw [fpdWfB, List.all_eq_true]
  constructor
  · intro h i j hij
    have hi : i < t.length := List.get?_eq_some.mp hij |>.1
    have := h i (List.mem_range.mpr hi)
    rw [hij] at this
    simpa using this
  · intro h i _
    cases hg : t.get? i with
    | none => simp
    | some v =>
        cases v with
        | chr c => simp
        | aliasIdx j => simpa using h i j hg

theorem fpdWf_resolve_entry (t : FpdTable)
    (hwf : ∀ i j, t.get? i = some (.aliasIdx j) → j < i) :
    ∀ (i : Nat) (v : FpdVal), t.get? i = some v →
      ∃ c, resolveFpdValue t (i + 1) v = some c ∧ FpdVal.chr c ∈ t := by
  intro i
  induction i using Nat.strong_induction_on with
  | _ i ih =>
      intro v hv
      cases v with
      | chr c =>
          exact ⟨c, resolveFpdValue_chr t (i + 1) c, List.get?_mem hv⟩
      | aliasIdx j =>
          have hji : j < i := hwf i j hv
          have hjlen : j < t.length := by
            have hi : i < t.length := List.get?_eq_some.mp hv |>.1
            omega
          obtain ⟨v2, hv2⟩ : ∃ v2, t.get? j = some v2 := by
            cases hg : t.get? j with
            | none =>
                exfalso
                rw [List.get?_eq_none] at hg
                omega
            | some v2 => exact ⟨v2, rfl⟩
          obtain ⟨c, hc, hmem⟩ := ih j hji v2 hv2
          refine ⟨c, ?_, hmem⟩
          have hstep : resolveFpdValue t (i + 1) (FpdVal.aliasIdx j)
              = resolveFpdValue t i v2 := by
            show (match t.get? j with
              | none => none
              | some v => resolveFpdValue t i v) = resolveFpdValue t i v2
            rw [hv2]
          rw [hstep]
          exact resolveFpdValue_mono t (j + 1) i v2 c (by omega) hc

/-- Under the construction invariant every table value resolves, with fuel
`t.length`, to a concrete entry of the table. -/
theorem fpdWf_resolve_value (t : FpdTable)
    (hwf : ∀ i j, t.get? i = some (.aliasIdx j) → j < i) :
    ∀ v ∈ t, ∃ c, resolveFpdValue t t.length v = some c ∧
      FpdVal.chr c ∈ t := by
  intro v hv
  obtain ⟨i, hi⟩ := List.mem_iff_get?.mp hv
  obtain ⟨c, hc, hmem⟩ := fpdWf_resolve_entry t hwf i v hi
  have hilen : i < t.length := List.get?_eq_some.mp hi |>.1
  exact ⟨c, resolveFpdValue_mono t (i + 1) t.length v c (by omega) hc, hmem⟩

theorem fpdEncodeGo_bmp_aux (t : FpdTable)
    (hwf : ∀ i j, t.get? i = some (.aliasIdx j) → j < i)
    (hshape : ∀ v ∈ t, fpdEntryShapeOk v = true) :
    ∀ l : List FpdVal, (∀ v ∈ l, v ∈ t) →
      ((∀ v ∈ l, FpdValueBmpOk t v) → ∃ bs, fpdEncodeGo t l = .ok bs) ∧
      ((∃ v ∈ l, ¬ FpdValueBmpOk t v) →
        ∃ cp, fpdEncodeGo t l = .error (.formatError [cp]) ∧
          2 ^ 16 ≤ cp) := by
  intro l
  induction l with
  | nil =>
      intro _
      refine ⟨fun _ => ⟨[], rfl⟩, ?_⟩
      rintro ⟨v, hv, -⟩
      simp at hv
  | cons v l ih =>
      intro hsub
      have hvt : v ∈ t := hsub v (List.mem_cons_self v l)
      have hsub2 : ∀ v2 ∈ l, v2 ∈ t :=
        fun v2 hv2 => hsub v2 (List.mem_cons_of_mem v hv2)
      obtain ⟨iha, ihb⟩ := ih hsub2
      obtain ⟨c, hc, hcmem⟩ := fpdWf_resolve_value t hwf v hvt
      have hcshape := hshape (FpdVal.chr c) hcmem
      simp only [fpdEntryShapeOk, Bool.and_eq_true, beq_iff_eq,
        decide_eq_true_eq] at hcshape
      obtain ⟨cp0, hcp0⟩ : ∃ cp0, c.character = [cp0] := by
        rcases hchar : c.character with - | ⟨a, - | ⟨b, l2⟩⟩
        · rw [hchar] at hcshape; simp at hcshape
        · exact ⟨a, rfl⟩
        · rw [hchar] at hcshape; simp at hcshape
      have hsingle : fpdCharacterSingle c = true := by
        simp [fpdCharacterSingle, hcp0]
      by_cases hbmp : cp0 < 2 ^ 16
      · -- this entry encodes; the outcome is decided by the rest
        have henc : fpdCharacterEncode c
            = some [cp0 % 256, cp0 / 256, c.width] := by
          simp only [fpdCharacterEncode, hcp0]
          rw [if_pos ⟨hbmp, hcshape.2⟩]
        have hvok : FpdValueBmpOk t v := by
          intro c2 hc2 cp hcp
          rw [hc] at hc2
          injection hc2 with hc2
          subst hc2
          rw [hcp0] at hcp
          simp at hcp
          omega
        constructor
        · intro hall
          obtain ⟨bs, hbs⟩ := iha fun v2 hv2 =>
            hall v2 (List.mem_cons_of_mem v hv2)
          refine ⟨[cp0 % 256, cp0 / 256, c.width] ++ bs, ?_⟩
          simp only [fpdEncodeGo, hc, hsingle, if_true, henc, hbs]
          rfl
        · rintro ⟨v2, hv2, hbad⟩
          rcases List.mem_cons.mp hv2 with rfl | hv2l
          · exact absurd hvok hbad
          · obtain ⟨cp, hcp, hcpge⟩ := ihb ⟨v2, hv2l, hbad⟩
            refine ⟨cp, ?_, hcpge⟩
            simp only [fpdEncodeGo, hc, hsingle, if_true, henc, hcp]
            rfl
      · -- this entry fails the 16-bit pack, naming its character
        have henc : fpdCharacterEncode c = none := by
          simp only [fpdCharacterEncode, hcp0]
          rw [if_neg]
          intro hcontra
          exact hbmp hcontra.1
        have hvbad : ¬ FpdValueBmpOk t v := by
          intro hok
          exact hbmp (hok c hc cp0 (by rw [hcp0]; simp))
        constructor
        · intro hall
          exact absurd (hall v (List.mem_cons_self v l)) hvbad
        · intro _
          refine ⟨cp0, ?_, by omega⟩
          simp only [fpdEncodeGo, hc, hsingle, if_true, henc, hcp0]

/-- C7: encoding a table whose entries all carry BMP characters (and
8-bit widths, as the data model requires) succeeds; encoding a table
containing a character outside the BMP fails with the
`FormatError` naming a character whose code point exceeds `0xFFFF`. -/
theorem fpd_encode_bmp_boundary (t : FpdTable)
    (hwf : fpdWfB t = true)
    (hshape : t.all fpdEntryShapeOk = true) :
    ((t.all fpdEntryBmp = true) → ∃ bs, fpdEncode t = .ok bs) ∧
    ((t.all fpdEntryBmp = false) →
      ∃ cp, fpdEncode t = .error (.formatError [cp]) ∧ 2 ^ 16 ≤ cp) := by
  rw [fpdWfB_iff] at hwf
  rw [List.all_eq_true] at hshape
  obtain ⟨ha, hb⟩ := fpdEncodeGo_bmp_aux t hwf hshape t (fun v hv => hv)
  constructor
  · intro hbmp
    rw [List.all_eq_true] at hbmp
    apply ha
    intro v hv c hc cp hcp
    obtain ⟨c2, hc2, hmem⟩ := fpdWf_resolve_value t hwf v hv
    rw [hc2] at hc
    injection hc with hc
    subst hc
    have := hbmp (FpdVal.chr c2) hmem
    simp only [fpdEntryBmp, List.all_eq_true, decide_eq_true_eq] at this
    exact this cp hcp
  · intro hnotbmp
    apply hb
    have : ¬ t.all fpdEntryBmp = true := by
      rw [hnotbmp]
      simp
    rw [List.all_eq_true] at this
    push_neg at this
    obtain ⟨v, hv, hvbad⟩ := this
    refine ⟨v, hv, ?_⟩
    intro hok
    apply hvbad
    cases v with
    | aliasIdx j => simp [fpdEntryBmp]
    | chr c =>
        simp only [fpdEntryBmp, List.all_eq_true, decide_eq_true_eq]
        intro cp hcp
        exact hok c (resolveFpdValue_chr t t.length c) cp hcp

/-- Witness for C7 at the concrete table holding U+10000 (outside the BMP)
and the letter B. -/
theorem fpd_encode_bmp_boundary_witness :
    ((([FpdVal.chr ⟨[65536], 0⟩, FpdVal.chr ⟨[66], 1⟩]
        : FpdTable).all fpdEntryBmp = true) →
      ∃ bs, fpdEncode [FpdVal.chr ⟨[65536], 0⟩, FpdVal.chr ⟨[66], 1⟩]
        = .ok bs) ∧
    ((([FpdVal.chr ⟨[65536], 0⟩, FpdVal.chr ⟨[66], 1⟩]
        : FpdTable).all fpdEntryBmp = false) →
      ∃ cp, fpdEncode [FpdVal.chr ⟨[65536], 0⟩, FpdVal.chr ⟨[66], 1⟩]
        = .error (.formatError [cp]) ∧ 2 ^ 16 ≤ cp) :=
  fpd_encode_bmp_boundary
    [FpdVal.chr ⟨[65536], 0⟩, FpdVal.chr ⟨[66], 1⟩]
    (by decide) (by decide)

theorem fpdReadCsvRows_no_header_err :
    ∀ (rows : List (List PyStr)) (acc : FpdTable),
      fpdReadCsvRows rows acc ≠ .error .headerMismatch := by
  intro rows
  induction rows with
  | nil => intro acc h; simp [fpdReadCsvRows] at h
  | cons row rest ih =>
      intro acc h
      simp only [fpdReadCsvRows] at h
      cases hw : pyIntHex (row.getD 1 []) with
      | none => rw [hw] at h; simp at h
      | some w =>
          rw [hw] at h
          simp only at h
          cases hfind : pyFindIdx
              (fpdValMatchesChar ⟨row.getD 0 [], w⟩) acc with
          | some i0 =>
              rw [hfind] at h
              exact ih _ h
          | none =>
              rw [hfind] at h
              exact ih _ h

/-- C2 is falsified by the source: the shared CSV helper used by format C
(fnt) emits and requires the header `code_point,width`, not
`character,width` — writing a one-entry fnt table emits the former, and
reading a CSV headed `character,width` raises the header error. -/
theorem csv_header_counterexample :
    (writeCsvCharacterTable [([65], 1)]).head? = some CSV_TABLE_HEADER ∧
    CSV_TABLE_HEADER ≠ FPD_CSV_HEADER ∧
    readCsvCharacterTable (fun w => w) [[s2c "character", s2c "width"]]
      = .error .headerMismatch := by
  refine ⟨rfl, by decide, by decide⟩

/-- C2 (amended): format B (fpd) uses the header row exactly
`character,width` and format C (fnt) uses exactly `code_point,width`; each
writer emits its own header as the first row, and each reader raises the
header format error precisely when the first row differs from its own
header (width-cell parse failures of the fpd reader are a different
error). -/
theorem csv_header_contract :
    (∀ (t : FpdTable) (rows : List (List PyStr)),
      fpdWriteCsv t = some rows → rows.head? = some FPD_CSV_HEADER) ∧
    (∀ rows : List (List PyStr),
      fpdReadCsv rows = .error .headerMismatch ↔
        rows.head? ≠ some FPD_CSV_HEADER) ∧
    (∀ table : List (PyStr × Nat),
      (writeCsvCharacterTable table).head? = some CSV_TABLE_HEADER) ∧
    (∀ rows : List (List PyStr),
      (∃ e, readCsvCharacterTable (fun w => w) rows = .error e) ↔
        rows.head? ≠ some CSV_TABLE_HEADER) := by
  refine ⟨?_, ?_, ?_, ?_⟩
  · intro t rows h
    simp only [fpdWriteCsv] at h
    cases hres : resolveAllFpd t with
    | none => rw [hres] at h; exact absurd h (by simp)
    | some cs =>
        rw [hres] at h
        have h2 : (FPD_CSV_HEADER :: cs.map fun c =>
            [c.character, hexStr c.width]) = rows := by
          injection h with h
        rw [← h2]
        rfl
  · intro rows
    constructor
    · intro h
      by_cases hc : rows.head? = some FPD_CSV_HEADER
      · exfalso
        simp only [fpdReadCsv] at h
        rw [if_neg (by intro hcon; exact hcon hc)] at h
        exact fpdReadCsvRows_no_header_err rows.tail [] h
      · exact hc
    · intro h
      simp only [fpdReadCsv, if_pos h]
  · intro table
    rfl
  · intro rows
    constructor
    · rintro ⟨e, he⟩
      by_cases hc : rows.head? = some CSV_TABLE_HEADER
      · exfalso
        simp only [readCsvCharacterTable] at he
        rw [if_neg (by intro hcon; exact hcon hc)] at he
        exact absurd he (by simp)
      · exact hc
    · intro h
      exact ⟨.headerMismatch, by simp only [readCsvCharacterTable, if_pos h]⟩

/-- Witness for C2 (amended) at a one-entry fpd table and a CSV headed
with the fnt header. -/
theorem csv_header_contract_witness :
    ([FPD_CSV_HEADER, [[65], s2c "0x5"]] : List (List PyStr)).head?
        = some FPD_CSV_HEADER ∧
    (fpdReadCsv [[s2c "code_point", s2c "width"]]
        = .error .headerMismatch ↔
      ([[s2c "code_point", s2c "width"]] : List (List PyStr)).head?
        ≠ some FPD_CSV_HEADER) :=
  ⟨csv_header_contract.1 [FpdVal.chr ⟨[65], 5⟩]
      [FPD_CSV_HEADER, [[65], s2c "0x5"]] (by decide),
    csv_header_contract.2.1 [[s2c "code_point", s2c "width"]]⟩

theorem write4bppPixels_even_aux :
    ∀ (n : Nat) (xs : List Bool), xs.length ≤ n → xs.length % 2 = 0 →
      ∃ bs, write4bppPixels xs = some bs ∧ bs.length = xs.length / 2 ∧
        (bs.map expand4bppByte).flatten = xs := by
  intro n
  induction n with
  | zero =>
      intro xs hn _
      have : xs = [] := List.eq_nil_of_length_eq_zero (by omega)
      subst this
      exact ⟨[], rfl, rfl, rfl⟩
  | succ n ih =>
      intro xs hn heven
      rcases xs with - | ⟨a, - | ⟨b, rest⟩⟩
      · exact ⟨[], rfl, rfl, rfl⟩
      · simp at heven
      · have hrlen : rest.length ≤ n := by
          simp only [List.length_cons] at hn
          omega
        have hreven : rest.length % 2 = 0 := by
          simp only [List.length_cons] at heven
          omega
        obtain ⟨bs, hbs, hlen, hexp⟩ := ih rest hrlen hreven
        refine ⟨(b.toNat * 16 + a.toNat) :: bs, ?_, ?_, ?_⟩
        · simp only [write4bppPixels, hbs, Option.map]
        · simp only [List.length_cons, hlen]
          omega
        · simp only [List.map_cons, List.flatten_cons, hexp]
          have ha : decide ((b.toNat * 16 + a.toNat) % 16 ≠ 0) = a := by
            cases a <;> cases b <;> decide
          have hb : decide ((b.toNat * 16 + a.toNat) / 16 ≠ 0) = b := by
            cases a <;> cases b <;> decide
          simp only [expand4bppByte, ha, hb]
          rfl

theorem write4bppPixels_even (xs : List Bool) (heven : xs.length % 2 = 0) :
    ∃ bs, write4bppPixels xs = some bs ∧ bs.length = xs.length / 2 ∧
      (bs.map expand4bppByte).flatten = xs :=
  write4bppPixels_even_aux xs.length xs le_rfl heven

theorem write4bppPixels_append_aux :
    ∀ (n : Nat) (xs ys : List Bool) (bs : List Nat), xs.length ≤ n →
      xs.length % 2 = 0 → write4bppPixels xs = some bs →
      write4bppPixels (xs ++ ys) = (write4bppPixels ys).map (bs ++ ·) := by
  intro n
  induction n with
  | zero =>
      intro xs ys bs hn _ hbs
      have : xs = [] := List.eq_nil_of_length_eq_zero (by omega)
      subst this
      injection hbs with hbs
      subst hbs
      simp only [List.nil_append]
      cases write4bppPixels ys <;> rfl
  | succ n ih =>
      intro xs ys bs hn heven hbs
      rcases xs with - | ⟨a, - | ⟨b, rest⟩⟩
      · injection hbs with hbs
        subst hbs
        simp only [List.nil_append]
        cases write4bppPixels ys <;> rfl
      · simp at heven
      · simp only [write4bppPixels] at hbs
        cases hrest : write4bppPixels rest with
        | none =>
            rw [hrest] at hbs
            exact absurd hbs (by simp)
        | some bs2 =>
            rw [hrest] at hbs
            simp only [Option.map] at hbs
            injection hbs with hbs
            subst hbs
            have hrlen : rest.length ≤ n := by
              simp only [List.length_cons] at hn
              omega
            have hreven : rest.length % 2 = 0 := by
              simp only [List.length_cons] at heven
              omega
            have := ih rest ys bs2 hrlen hreven hrest
            show (write4bppPixels (rest ++ ys)).map
                ((b.toNat * 16 + a.toNat) :: ·)
              = (write4bppPixels ys).map
                (((b.toNat * 16 + a.toNat) :: bs2) ++ ·)
            rw [this]
            cases write4bppPixels ys <;> rfl

/-- C4 is falsified by the source at the degenerate matrix `[[]]` (one row
of zero pixels): its total pixel count and row length are even (zero), it
packs to the empty byte string, but unpacking with the matching byte width
`0` raises `ValueError` (the `range` step is zero) instead of returning the
matrix. -/
theorem bitmap_roundtrip_counterexample :
    write4bppGraphic [[]] = some [] ∧
    parse4bppGraphic [] 0 = none := by
  exact ⟨rfl, rfl⟩

theorem flatten_length_uniform (m : List (List Bool)) (w : Nat)
    (hrows : ∀ row ∈ m, row.length = w) :
    m.flatten.length = m.length * w := by
  induction m with
  | nil => simp
  | cons row rest ih =>
      simp only [List.flatten_cons, List.length_append, List.length_cons]
      rw [hrows row (List.mem_cons_self row rest),
        ih fun r hr => hrows r (List.mem_cons_of_mem row hr)]
      ring

/-- C4 (amended): for every boolean matrix with a positive, even row length
(each row a whole, nonzero number of bytes), unpacking the packed bytes
with the matching byte width reproduces the matrix. -/
theorem bitmap_pack_unpack_inverse (m : List (List Bool)) (w : Nat)
    (hw : 0 < w) (heven : w % 2 = 0)
    (hrows : ∀ row ∈ m, row.length = w) :
    ∃ packed, write4bppGraphic m = some packed ∧
      parse4bppGraphic packed (w / 2) = some m := by
  set u := w / 2 with hu
  have hw2 : w = 2 * u := by omega
  have hu0 : u ≠ 0 := by omega
  clear hu
  revert hrows
  induction m with
  | nil =>
      intro _
      refine ⟨[], rfl, ?_⟩
      simp only [parse4bppGraphic]
      rw [if_neg hu0, if_neg (by simp)]
      rw [chunkList_nil]
      rfl
  | cons row rest ih =>
      intro hrows
      have hrow : row.length = w := hrows row (List.mem_cons_self row rest)
      have hrest : ∀ r ∈ rest, r.length = w :=
        fun r hr => hrows r (List.mem_cons_of_mem row hr)
      obtain ⟨pr, hpr, hparse⟩ := ih hrest
      obtain ⟨bsr, hbsr, hbsrlen, hbsrexp⟩ :=
        write4bppPixels_even row (by omega)
      have hbsru : bsr.length = u := by omega
      -- the packed bytes of the whole matrix
      have hwrite : write4bppGraphic (row :: rest) = some (bsr ++ pr) := by
        simp only [write4bppGraphic, List.flatten_cons]
        rw [write4bppPixels_append_aux row.length row rest.flatten bsr
          le_rfl (by omega) hbsr]
        simp only [write4bppGraphic] at hpr
        rw [hpr]
        rfl
      -- length bookkeeping for the parse conditions
      have hprlen : pr.length % u = 0 := by
        obtain ⟨bs2, hbs2, hbs2len, -⟩ :=
          write4bppPixels_even rest.flatten (by
            rw [flatten_length_uniform rest w hrest, hw2]
            have heq : rest.length * (2 * u) = 2 * (rest.length * u) := by
              ring
            rw [heq]
            exact Nat.mul_mod_right 2 _)
        simp only [write4bppGraphic] at hpr
        rw [hpr] at hbs2
        injection hbs2 with hbs2
        subst hbs2
        rw [hbs2len, flatten_length_uniform rest w hrest, hw2]
        have heq : rest.length * (2 * u) = 2 * (rest.length * u) := by ring
        rw [heq, Nat.mul_div_cancel_left _ (by norm_num)]
        exact Nat.mul_mod_left rest.length u
      have hlenmod : (bsr ++ pr).length % u = 0 := by
        rw [List.length_append, hbsru, Nat.add_comm, Nat.add_mod_right]
        exact hprlen
      refine ⟨bsr ++ pr, hwrite, ?_⟩
      simp only [parse4bppGraphic]
      rw [if_neg hu0]
      rw [if_neg (fun hcon => hcon.1 hlenmod)]
      have hchunks : chunkList (bsr ++ pr) u = bsr :: chunkList pr u := by
        rw [chunkList_cons (bsr ++ pr) u
          (by
            intro hcon
            have : bsr.length = 0 := by
              rw [← List.length_nil]
              exact congrArg List.length (List.append_eq_nil.mp hcon).1
            omega)
          hu0]
        congr 1
        · rw [← hbsru]
          exact List.take_left bsr pr
        · congr 1
          rw [← hbsru]
          exact List.drop_left bsr pr
      rw [hchunks]
      simp only [List.map_cons, hbsrexp]
      -- the tail chunks are exactly the parse of the rest
      simp only [parse4bppGraphic] at hparse
      rw [if_neg hu0] at hparse
      rw [if_neg (by
        intro hcon
        exact hcon.1 hprlen)] at hparse
      injection hparse with hparse
      rw [hparse]

/-- Witness for C4 (amended) at a 2×2 matrix. -/
theorem bitmap_pack_unpack_inverse_witness :
    ∃ packed, write4bppGraphic [[true, false], [false, true]] = some packed ∧
      parse4bppGraphic packed (2 / 2) = some [[true, false], [false, true]] :=
  bitmap_pack_unpack_inverse [[true, false], [false, true]] 2
    (by decide) (by decide) (by decide)

/-- C9: for a font size whose byte width `font_size*4/8` is positive,
`Fmp.decode` raises the structural format error exactly when the input
length is not a multiple of the character cell size
`(font_size*4/8)^2 * 2`, and on every exact multiple it succeeds with
`length / cell` glyphs. -/
theorem fmp_decode_size_validation (data : List Nat) (fontSize : Nat)
    (hbw : 0 < fontSize * 4 / 8) :
    (fmpDecode data fontSize = .error .formatError ↔
      data.length % ((fontSize * 4 / 8) ^ 2 * 2) ≠ 0) ∧
    (∀ gs, fmpDecode data fontSize = .ok gs →
      gs.length = data.length / ((fontSize * 4 / 8) ^ 2 * 2)) := by
  have hcell : (fontSize * 4 / 8) ^ 2 * 2 ≠ 0 := by positivity
  constructor
  · constructor
    · intro h
      simp only [fmpDecode] at h
      rw [if_neg hcell] at h
      by_cases hmod : data.length % ((fontSize * 4 / 8) ^ 2 * 2) ≠ 0
      · exact hmod
      · rw [if_neg hmod] at h
        exact absurd h (by simp)
    · intro hmod
      simp only [fmpDecode]
      rw [if_neg hcell, if_pos hmod]
  · intro gs hgs
    simp only [fmpDecode] at hgs
    rw [if_neg hcell] at hgs
    by_cases hmod : data.length % ((fontSize * 4 / 8) ^ 2 * 2) ≠ 0
    · rw [if_pos hmod] at hgs
      exact absurd hgs (by simp)
    · rw [if_neg hmod] at hgs
      injection hgs with hgs
      rw [← hgs, List.length_map]
      exact chunkList_length _ hcell data (by omega)

/-- Witness for C9 at 32 zero bytes with font size 8 (cell size 32). -/
theorem fmp_decode_size_validation_witness :
    ((fmpDecode (List.replicate 32 0) 8 = .error .formatError ↔
      (List.replicate 32 (0 : Nat)).length % ((8 * 4 / 8) ^ 2 * 2) ≠ 0) ∧
    (∀ gs, fmpDecode (List.replicate 32 0) 8 = .ok gs →
      gs.length = (List.replicate 32 (0 : Nat)).length
        / ((8 * 4 / 8) ^ 2 * 2))) :=
  fmp_decode_size_validation (List.replicate 32 0) 8 (by decide)

/-- C1 is falsified by the source: the size check is `size % total_length
!= 0`, not equality — duplicating a valid 18-byte stream gives a 36-byte
stream whose leading field still reads 18, yet decode succeeds. -/
theorem mtx_length_field_counterexample :
    readWord (mtxExample18 ++ mtxExample18) 0 4 = 18 ∧
    (mtxExample18 ++ mtxExample18).length = 36 ∧
    mtxDecode (mtxExample18 ++ mtxExample18) = .ok [[65]] := by
  refine ⟨by decide, by decide, by decide⟩

/-- C1 (amended): `Mtx.decode` raises the structural size error precisely
when the leading u32 is nonzero and the physical stream size is not an
exact multiple of it; equality is not required — any exact multiple passes
the size check (a zero leading field raises a division error instead). -/
theorem mtx_decode_size_check (data : List Nat) :
    mtxDecode data = .error .sizeError ↔
      readWord data 0 4 ≠ 0 ∧ data.length % readWord data 0 4 ≠ 0 := by
  simp only [mtxDecode]
  by_cases h0 : readWord data 0 4 = 0
  · rw [if_pos h0]
    simp [h0]
  · rw [if_neg h0]
    by_cases hmod : data.length % readWord data 0 4 ≠ 0
    · rw [if_pos hmod]
      simp [h0, hmod]
    · rw [if_neg hmod]
      by_cases hid : readWord data 4 4 = 8
      · rw [if_pos hid]
        simp [hmod]
      · rw [if_neg hid]
        by_cases hid2 : readWord data 4 4 = readWord data 4 8 ∧
            readWord data 4 8 = 16
        · rw [if_pos hid2]
          simp [hmod]
        · rw [if_neg hid2]
          simp [hmod]

theorem renderMtxStringLoop_acc (font : Nat → PyStr) :
    ∀ (s : List Nat) (buf : PyStr) (arrows : Nat),
      renderMtxStringLoop font s buf arrows
        = ⟨buf ++ (renderMtxString font s).text,
            arrows + (renderMtxString font s).arrows⟩ := by
  intro s
  induction s with
  | nil =>
      intro buf arrows
      simp [renderMtxStringLoop, renderMtxString]
  | cons c rest ih =>
      intro buf arrows
      simp only [renderMtxString, renderMtxStringLoop]
      by_cases h1 : c = 0xF813
      · rw [if_pos h1, if_pos h1, ih buf (arrows + 1), ih [] (0 + 1)]
        simp only [List.nil_append, MtxTextNode.mk.injEq]
        exact ⟨by simp, by omega⟩
      · rw [if_neg h1, if_neg h1]
        by_cases h2 : c = 0xF883
        · rw [if_pos h2, if_pos h2, ih (buf ++ s2c "0xF883") arrows,
            ih ([] ++ s2c "0xF883") 0]
          simp [List.append_assoc]
        · rw [if_neg h2, if_neg h2]
          by_cases h3 : c = 0xFFFD
          · rw [if_pos h3, if_pos h3, ih (buf ++ [10]) arrows,
              ih ([] ++ [10]) 0]
            simp [List.append_assoc]
          · rw [if_neg h3, if_neg h3]
            by_cases h4 : c = 0xFFFF
            · rw [if_pos h4, if_pos h4]
              simp
            · rw [if_neg h4, if_neg h4, ih (buf ++ font c) arrows,
                ih ([] ++ font c) 0]
              simp [List.append_assoc]

theorem renderMtxString_stop (font : Nat → PyStr) :
    ∀ (pre post : List Nat),
      renderMtxString font (pre ++ 0xFFFF :: post)
        = renderMtxString font (pre ++ [0xFFFF]) := by
  have key : ∀ (pre post : List Nat) (buf : PyStr) (arrows : Nat),
      renderMtxStringLoop font (pre ++ 0xFFFF :: post) buf arrows
        = renderMtxStringLoop font (pre ++ [0xFFFF]) buf arrows := by
    intro pre
    induction pre with
    | nil =>
        intro post buf arrows
        simp [renderMtxStringLoop]
    | cons c rest ih =>
        intro post buf arrows
        simp only [List.cons_append, List.append_eq, renderMtxStringLoop]
        by_cases h1 : c = 0xF813
        · rw [if_pos h1, if_pos h1, ih]
        · rw [if_neg h1, if_neg h1]
          by_cases h2 : c = 0xF883
          · rw [if_pos h2, if_pos h2, ih]
          · rw [if_neg h2, if_neg h2]
            by_cases h3 : c = 0xFFFD
            · rw [if_pos h3, if_pos h3, ih]
            · rw [if_neg h3, if_neg h3]
              by_cases h4 : c = 0xFFFF
              · rw [if_pos h4, if_pos h4]
              · rw [if_neg h4, if_neg h4, ih]
  intro pre post
  exact key pre post [] 0

/-- C6: `Mtx.write_xml` renders one text node per input string in input
order, and each string is processed by the literal dispatch, checked before
font resolution: `0xF813` appends an arrow node and no character,
`0xF883` appends the literal text `0xF883`, `0xFFFD` appends a newline,
`0xFFFF` stops the string immediately (no later index is rendered), and
any other value appends the character resolved through the font table. -/
theorem mtx_write_xml_dispatch (font : Nat → PyStr)
    (strings : List (List Nat)) :
    (mtxWriteXml font strings).length = strings.length ∧
    (∀ i, (mtxWriteXml font strings).get? i
      = (strings.get? i).map (renderMtxString font)) ∧
    renderMtxString font [] = ⟨[], 0⟩ ∧
    (∀ (c : Nat) (s : List Nat),
      renderMtxString font (c :: s) =
        if c = 0xF813 then
          ⟨(renderMtxString font s).text, (renderMtxString font s).arrows + 1⟩
        else if c = 0xF883 then
          ⟨s2c "0xF883" ++ (renderMtxString font s).text,
            (renderMtxString font s).arrows⟩
        else if c = 0xFFFD then
          ⟨10 :: (renderMtxString font s).text,
            (renderMtxString font s).arrows⟩
        else if c = 0xFFFF then ⟨[], 0⟩
        else ⟨font c ++ (renderMtxString font s).text,
          (renderMtxString font s).arrows⟩) ∧
    (∀ (pre post : List Nat),
      renderMtxString font (pre ++ 0xFFFF :: post)
        = renderMtxString font (pre ++ [0xFFFF])) := by
  refine ⟨List.length_map strings _, ?_, rfl, ?_, renderMtxString_stop font⟩
  · intro i
    exact List.get?_map _ _ i
  · intro c s
    simp only [renderMtxString, renderMtxStringLoop]
    by_cases h1 : c = 0xF813
    · rw [if_pos h1, if_pos h1,
        renderMtxStringLoop_acc font s [] 1]
      simp only [List.nil_append, MtxTextNode.mk.injEq, renderMtxString]
      exact ⟨by simp, by omega⟩
    · rw [if_neg h1, if_neg h1]
      by_cases h2 : c = 0xF883
      · rw [if_pos h2, if_pos h2,
          renderMtxStringLoop_acc font s ([] ++ s2c "0xF883") 0]
        simp [renderMtxString]
      · rw [if_neg h2, if_neg h2]
        by_cases h3 : c = 0xFFFD
        · rw [if_pos h3, if_pos h3,
            renderMtxStringLoop_acc font s ([] ++ [10]) 0]
          simp [renderMtxString]
        · rw [if_neg h3, if_neg h3]
          by_cases h4 : c = 0xFFFF
          · rw [if_pos h4, if_pos h4]
          · rw [if_neg h4, if_neg h4,
              renderMtxStringLoop_acc font s ([] ++ font c) 0]
            simp [renderMtxString]

theorem mtxOffsetsGo_snd :
    ∀ (Ls : List Nat) (acc : Nat), (mtxOffsetsGo Ls acc).2 = acc + Ls.sum := by
  intro Ls
  induction Ls with
  | nil => intro acc; simp [mtxOffsetsGo]
  | cons L rest ih =>
      intro acc
      simp only [mtxOffsetsGo, ih (acc + L), List.sum_cons]
      omega

theorem mtxOffsetsGo_fst_length :
    ∀ (Ls : List Nat) (acc : Nat),
      (mtxOffsetsGo Ls acc).1.length = Ls.length := by
  intro Ls
  induction Ls with
  | nil => intro acc; simp [mtxOffsetsGo]
  | cons L rest ih =>
      intro acc
      simp only [mtxOffsetsGo, List.length_cons, ih (acc + L)]

theorem mtxOffsetsGo_mem :
    ∀ (Ls : List Nat) (acc : Nat) (x : Nat), x ∈ (mtxOffsetsGo Ls acc).1 →
      acc ≤ x ∧ x ≤ acc + Ls.sum := by
  intro Ls
  induction Ls with
  | nil => intro acc x hx; simp [mtxOffsetsGo] at hx
  | cons L rest ih =>
      intro acc x hx
      simp only [mtxOffsetsGo, List.mem_cons] at hx
      rcases hx with rfl | hx
      · simp
      · obtain ⟨h1, h2⟩ := ih (acc + L) x hx
        simp only [List.sum_cons]
        omega

theorem mtxOffsetsGo_delta :
    ∀ (Ls : List Nat) (acc : Nat),
      OffsetsDelta ((mtxOffsetsGo Ls acc).1 ++ [(mtxOffsetsGo Ls acc).2])
        Ls := by
  intro Ls
  induction Ls with
  | nil => intro acc; simp [mtxOffsetsGo, OffsetsDelta]
  | cons L rest ih =>
      intro acc
      cases rest with
      | nil => simp [mtxOffsetsGo, OffsetsDelta]
      | cons L2 rest2 =>
          have := ih (acc + L)
          simp only [mtxOffsetsGo, List.cons_append]
          simp only [mtxOffsetsGo] at this ⊢
          exact ⟨rfl, this⟩

theorem writeAllWords_all_fit :
    ∀ pairs : List (Nat × Nat), (∀ p ∈ pairs, p.1 < 256 ^ p.2) →
      writeAllWords pairs
        = some (pairs.map fun p => toBytesLE p.2 p.1).flatten := by
  intro pairs
  induction pairs with
  | nil => intro _; rfl
  | cons vw rest ih =>
      intro hfit
      have hh : vw.1 < 256 ^ vw.2 := hfit vw (List.mem_cons_self vw rest)
      simp only [writeAllWords, mtxWriteBytes, if_pos hh,
        ih fun p hp => hfit p (List.mem_cons_of_mem vw hp)]
      rfl

theorem readWord_at (pre rest : List Nat) (w v : Nat) (hv : v < 256 ^ w) :
    readWord (pre ++ toBytesLE w v ++ rest) pre.length w = v := by
  simp only [readWord]
  rw [List.append_assoc]
  rw [List.drop_left pre (toBytesLE w v ++ rest)]
  have h2 := List.take_left (toBytesLE w v) rest
  rw [toBytesLE_length] at h2
  rw [h2]
  exact fromBytesLE_toBytesLE w v hv

theorem readWords_at (w : Nat) :
    ∀ (vals pre rest data : List Nat),
      data = pre ++ (vals.map (toBytesLE w)).flatten ++ rest →
      (∀ v ∈ vals, v < 256 ^ w) →
      readWords data w pre.length vals.length = vals := by
  intro vals
  induction vals with
  | nil => intro pre rest data _ _; rfl
  | cons v vs ih =>
      intro pre rest data hdata hfit
      simp only [List.map_cons, List.flatten_cons] at hdata
      simp only [List.length_cons, readWords]
      congr 1
      · rw [hdata]
        have hassoc : pre ++ (toBytesLE w v
              ++ (vs.map (toBytesLE w)).flatten) ++ rest
            = pre ++ toBytesLE w v
              ++ ((vs.map (toBytesLE w)).flatten ++ rest) := by
          simp [List.append_assoc]
        rw [hassoc]
        exact readWord_at pre _ w v (hfit v (List.mem_cons_self v vs))
      · have hlen : pre.length + w = (pre ++ toBytesLE w v).length := by
          rw [List.length_append, toBytesLE_length]
        rw [hlen]
        apply ih (pre ++ toBytesLE w v) rest data
        · rw [hdata]
          simp [List.append_assoc]
        · exact fun x hx => hfit x (List.mem_cons_of_mem v hx)

theorem bytesFlatten_length (w : Nat) :
    ∀ vals : List Nat, ((vals.map (toBytesLE w)).flatten).length
      = w * vals.length := by
  intro vals
  induction vals with
  | nil => simp
  | cons v vs ih =>
      simp only [List.map_cons, List.flatten_cons, List.length_append,
        toBytesLE_length, ih, List.length_cons]
      ring

theorem flatten_map_flatten (f : Nat → List Nat) :
    ∀ ss : List (List Nat),
      (ss.map fun s => (s.map f).flatten).flatten
        = (ss.flatten.map f).flatten := by
  intro ss
  induction ss with
  | nil => rfl
  | cons s rest ih =>
      simp only [List.map_cons, List.flatten_cons, List.map_append,
        List.flatten_append, ih]

/-- The string-reading loop reproduces the strings when the section list
deltas match twice the string lengths and the string bytes sit at the read
position. -/
theorem mtxStringsLoop_reads :
    ∀ (ss : List (List Nat)) (sections : List Nat)
      (pre rest data : List Nat),
      data = pre
        ++ (ss.map fun s => (s.map (toBytesLE 2)).flatten).flatten ++ rest →
      (∀ s ∈ ss, ∀ v ∈ s, v < 2 ^ 16) →
      OffsetsDelta sections (ss.map fun s => 2 * s.length) →
      mtxStringsLoop data sections pre.length = ss := by
  intro ss
  induction ss with
  | nil =>
      intro sections pre rest data _ _ hdelta
      cases sections with
      | nil => exact absurd hdelta (by simp [OffsetsDelta])
      | cons a tail =>
          cases tail with
          | nil => rfl
          | cons b tail2 => exact absurd hdelta (by simp [OffsetsDelta])
  | cons s ss2 ih =>
      intro sections pre rest data hdata hvals hdelta
      obtain ⟨a, b, tail, rfl⟩ :
          ∃ a b tail, sections = a :: b :: tail := by
        cases sections with
        | nil => exact absurd hdelta (by simp [OffsetsDelta])
        | cons a tail =>
            cases tail with
            | nil => exact absurd hdelta (by simp [OffsetsDelta])
            | cons b tail2 => exact ⟨a, b, tail2, rfl⟩
      simp only [List.map_cons, OffsetsDelta] at hdelta
      obtain ⟨hb, hdelta2⟩ := hdelta
      simp only [mtxStringsLoop]
      have hcnt : ((((b : Int)) - ((a : Int))).fdiv 2).toNat = s.length := by
        rw [hb]
        push_cast
        have : (a : Int) + 2 * (s.length : Int) - a
            = 2 * (s.length : Int) := by ring
        rw [this, Int.mul_fdiv_cancel_left _ (by norm_num)]
        exact Int.toNat_natCast s.length
      rw [hcnt]
      simp only [List.map_cons, List.flatten_cons] at hdata
      congr 1
      · apply readWords_at 2 s pre
          ((ss2.map fun s2 => (s2.map (toBytesLE 2)).flatten).flatten ++ rest)
          data
        · rw [hdata]
          simp [List.append_assoc]
        · intro v hv
          have hv16 := hvals s (List.mem_cons_self s ss2) v hv
          have h2 : (256 : Nat) ^ 2 = 2 ^ 16 := by norm_num
          rw [h2]
          exact hv16
      · have hlen : pre.length + 2 * s.length
            = (pre ++ (s.map (toBytesLE 2)).flatten).length := by
          rw [List.length_append, bytesFlatten_length]
        rw [hlen]
        apply ih (b :: tail) (pre ++ (s.map (toBytesLE 2)).flatten) rest data
        · rw [hdata]
          simp [List.append_assoc]
        · exact fun s2 hs2 => hvals s2 (List.mem_cons_of_mem s hs2)
        · exact hdelta2

theorem mtxOffsetsGo_fst_cons (L : Nat) (Ls : List Nat) (acc : Nat) :
    (mtxOffsetsGo (L :: Ls) acc).1 = acc :: (mtxOffsetsGo Ls (acc + L)).1 :=
  rfl

theorem sum_map_two_mul :
    ∀ l : List (List Nat),
      (l.map fun s => 2 * s.length).sum = 2 * (l.map List.length).sum := by
  intro l
  induction l with
  | nil => rfl
  | cons s rest ih =>
      simp only [List.map_cons, List.sum_cons, ih]
      ring

theorem readWord_at2 (data pre rest : List Nat) (w v pos : Nat)
    (hdata : data = pre ++ toBytesLE w v ++ rest) (hv : v < 256 ^ w)
    (hpos : pos = pre.length) :
    readWord data pos w = v := by
  subst hdata
  subst hpos
  exact readWord_at pre rest w v hv

theorem readWords_at2 (data pre rest vals : List Nat) (w pos cnt : Nat)
    (hdata : data = pre ++ (vals.map (toBytesLE w)).flatten ++ rest)
    (hfit : ∀ v ∈ vals, v < 256 ^ w)
    (hpos : pos = pre.length) (hcnt : cnt = vals.length) :
    readWords data w pos cnt = vals := by
  subst hpos
  subst hcnt
  exact readWords_at w vals pre rest data hdata hfit

theorem mtxEncode32_eq (strings : List (List Nat)) :
    mtxEncode32 strings = writeAllWords
      ((((mtxOffsetsGo (strings.map fun s => 2 * s.length)
          (12 + 4 * strings.length)).2, 4) :: (8, 4) :: (12, 4) ::
        (mtxOffsetsGo (strings.map fun s => 2 * s.length)
          (12 + 4 * strings.length)).1.map fun o => (o, 4))
        ++ strings.flatten.map fun c => (c, 2)) := rfl

theorem writeAllWords_head_overflow (v w : Nat) (rest : List (Nat × Nat))
    (h : ¬ v < 256 ^ w) : writeAllWords ((v, w) :: rest) = none := by
  simp only [writeAllWords, mtxWriteBytes, if_neg h]

/-- C10 is falsified by the source at a table of `2^30` one-character
strings: all values fit 16 bits and the table is non-empty, but the final
`mtx_length` is `12 + 6·2^30 ≥ 2^32`, so the very first
`to_bytes(4, "little")` raises `OverflowError` and the encode produces no
bytes at all, let alone round-trips. -/
theorem mtx_roundtrip_overflow_counterexample :
    List.replicate (2 ^ 30) ([0] : List Nat) ≠ [] ∧
    (∀ s ∈ List.replicate (2 ^ 30) ([0] : List Nat), ∀ v ∈ s, v < 2 ^ 16) ∧
    mtxEncode32 (List.replicate (2 ^ 30) [0]) = none := by
  refine ⟨?_, ?_, ?_⟩
  · intro h
    have h1 : (List.replicate (2 ^ 30) ([0] : List Nat)).length
        = ([] : List (List Nat)).length := congrArg List.length h
    rw [List.length_replicate, List.length_nil] at h1
    exact absurd h1 (by norm_num)
  · intro s hs v hv
    rw [List.eq_of_mem_replicate hs] at hv
    simp only [List.mem_singleton] at hv
    subst hv
    norm_num
  · have hsum : ((List.replicate (2 ^ 30) ([0] : List Nat)).map
        fun s => 2 * s.length).sum = 2 ^ 31 := by
      rw [List.map_replicate]
      simp only [List.length_singleton, Nat.mul_one]
      rw [List.sum_replicate]
      simp only [smul_eq_mul]
      norm_num
    have hlen : (List.replicate (2 ^ 30) ([0] : List Nat)).length
        = 2 ^ 30 := List.length_replicate _ _
    have htot : (mtxOffsetsGo
        ((List.replicate (2 ^ 30) ([0] : List Nat)).map
          fun s => 2 * s.length)
        (12 + 4 * (List.replicate (2 ^ 30) ([0] : List Nat)).length)).2
        = 12 + 4 * 2 ^ 30 + 2 ^ 31 := by
      rw [mtxOffsetsGo_snd, hsum, hlen]
    rw [mtxEncode32_eq, List.cons_append]
    apply writeAllWords_head_overflow
    rw [htot]
    norm_num

theorem mapPairs_flatten (T : Nat) (offlist chars : List Nat) :
    ((((T, 4) :: (8, 4) :: (12, 4) :: offlist.map fun o => (o, 4))
        ++ chars.map fun c => (c, 2)).map
        fun p : Nat × Nat => toBytesLE p.2 p.1).flatten
      = toBytesLE 4 T ++ (toBytesLE 4 8 ++ (toBytesLE 4 12
        ++ ((offlist.map (toBytesLE 4)).flatten
          ++ (chars.map (toBytesLE 2)).flatten))) := by
  simp only [List.cons_append, List.map_cons, List.map_append,
    List.map_map, List.flatten_cons, List.flatten_append]
  have h1 : ((fun p : Nat × Nat => toBytesLE p.2 p.1) ∘ fun o => (o, 4))
      = toBytesLE 4 := rfl
  have h2 : ((fun p : Nat × Nat => toBytesLE p.2 p.1) ∘ fun c => (c, 2))
      = toBytesLE 2 := rfl
  rw [h1, h2]

theorem flatten_length_sum :
    ∀ l : List (List Nat), l.flatten.length = (l.map List.length).sum := by
  intro l
  induction l with
  | nil => rfl
  | cons s rest ih =>
      simp only [List.flatten_cons, List.length_append, List.map_cons,
        List.sum_cons, ih]

theorem mtxDecode_layout (T : Nat) (s0 : List Nat) (ss0 : List (List Nat))
    (offtail : List Nat)
    (hvals : ∀ s ∈ s0 :: ss0, ∀ v ∈ s, v < 2 ^ 16)
    (hofftaillen : offtail.length = ss0.length)
    (hofftailmem : ∀ o ∈ offtail, o < 2 ^ 32)
    (hT : T = 12 + 4 * (s0 :: ss0).length
      + 2 * ((s0 :: ss0).map List.length).sum)
    (hT32 : T < 2 ^ 32)
    (hdelta : OffsetsDelta
      ((12 + 4 * (s0 :: ss0).length) :: (offtail ++ [T]))
      ((s0 :: ss0).map fun s => 2 * s.length)) :
    mtxDecode (toBytesLE 4 T ++ (toBytesLE 4 8 ++ (toBytesLE 4 12
      ++ ((((12 + 4 * (s0 :: ss0).length) :: offtail).map
            (toBytesLE 4)).flatten
        ++ ((s0 :: ss0).flatten.map (toBytesLE 2)).flatten))))
      = .ok (s0 :: ss0) := by
  set D := toBytesLE 4 T ++ (toBytesLE 4 8 ++ (toBytesLE 4 12
      ++ ((((12 + 4 * (s0 :: ss0).length) :: offtail).map
            (toBytesLE 4)).flatten
        ++ ((s0 :: ss0).flatten.map (toBytesLE 2)).flatten))) with hD
  have h2to32 : (256 : Nat) ^ 4 = 2 ^ 32 := by norm_num
  have hDlen : D.length = T := by
    rw [hD, hT]
    simp only [List.length_append, bytesFlatten_length]
    rw [flatten_length_sum]
    simp only [toBytesLE_length, List.length_cons, hofftaillen]
    omega
  have hw0 : readWord D 0 4 = T := by
    refine readWord_at2 D []
      (toBytesLE 4 8 ++ (toBytesLE 4 12 ++ ((((12 + 4 * (s0 :: ss0).length) :: offtail).map (toBytesLE 4)).flatten ++ ((s0 :: ss0).flatten.map (toBytesLE 2)).flatten)))
      4 T 0 ?_ ?_ rfl
    · simp [hD, List.append_assoc]
    · rw [h2to32]; exact hT32
  have hw4 : readWord D 4 4 = 8 := by
    refine readWord_at2 D (toBytesLE 4 T)
      (toBytesLE 4 12 ++ ((((12 + 4 * (s0 :: ss0).length) :: offtail).map (toBytesLE 4)).flatten ++ ((s0 :: ss0).flatten.map (toBytesLE 2)).flatten))
      4 8 4 ?_ (by norm_num) ?_
    · simp [hD, List.append_assoc]
    · rw [toBytesLE_length]
  have hw8 : readWord D 8 4 = 12 := by
    refine readWord_at2 D (toBytesLE 4 T ++ toBytesLE 4 8)
      ((((12 + 4 * (s0 :: ss0).length) :: offtail).map (toBytesLE 4)).flatten ++ ((s0 :: ss0).flatten.map (toBytesLE 2)).flatten)
      4 12 8 ?_ (by norm_num) ?_
    · simp [hD, List.append_assoc]
    · simp [toBytesLE_length]
  have hw12 : readWord D 12 4 = 12 + 4 * (s0 :: ss0).length := by
    refine readWord_at2 D (toBytesLE 4 T ++ toBytesLE 4 8 ++ toBytesLE 4 12)
      ((offtail.map (toBytesLE 4)).flatten ++ ((s0 :: ss0).flatten.map (toBytesLE 2)).flatten)
      4 (12 + 4 * (s0 :: ss0).length) 12 ?_ ?_ ?_
    · simp [hD, List.append_assoc]
    · rw [h2to32]; omega
    · simp [toBytesLE_length]
  simp only [mtxDecode]
  rw [hw0]
  rw [if_neg (show ¬ T = 0 by omega)]
  rw [hDlen, Nat.mod_self]
  rw [if_neg (show ¬ (0 : Nat) ≠ 0 from fun h => h rfl)]
  rw [hw4]
  rw [if_pos rfl]
  refine congrArg Except.ok ?_
  simp only [mtxDecodeBody]
  rw [show (8 : Nat) + 4 = 12 from rfl, show (8 : Nat) + 2 * 4 = 16 from rfl]
  rw [hw8, hw12]
  have hcount : ((((12 + 4 * (s0 :: ss0).length : Nat) : Int)
      - ((12 : Nat) : Int)).fdiv ((4 : Nat) : Int) - 1).toNat
      = ss0.length := by
    rw [List.length_cons]
    push_cast
    rw [show ((12 : Int) + 4 * ((ss0.length : Int) + 1) - 12)
        = 4 * ((ss0.length : Int) + 1) from by ring]
    rw [Int.mul_fdiv_cancel_left _ (by norm_num : (4 : Int) ≠ 0)]
    omega
  rw [hcount]
  have hmid : readWords D 4 16 ss0.length = offtail := by
    refine readWords_at2 D (toBytesLE 4 T ++ toBytesLE 4 8 ++ toBytesLE 4 12
        ++ toBytesLE 4 (12 + 4 * (s0 :: ss0).length))
        (((s0 :: ss0).flatten.map (toBytesLE 2)).flatten) offtail 4 16
        ss0.length ?_ ?_ ?_ hofftaillen.symm
    · simp [hD, List.append_assoc]
    · intro v hv
      rw [h2to32]
      exact hofftailmem v hv
    · simp [toBytesLE_length]
  rw [hmid]
  rw [show 16 + 4 * ss0.length
      = (toBytesLE 4 T ++ toBytesLE 4 8 ++ toBytesLE 4 12
        ++ toBytesLE 4 (12 + 4 * (s0 :: ss0).length)
        ++ (offtail.map (toBytesLE 4)).flatten).length from by
    simp only [List.length_append, bytesFlatten_length, toBytesLE_length,
      hofftaillen]]
  refine mtxStringsLoop_reads (s0 :: ss0)
    ((12 + 4 * (s0 :: ss0).length) :: (offtail ++ [T]))
    (toBytesLE 4 T ++ toBytesLE 4 8 ++ toBytesLE 4 12
      ++ toBytesLE 4 (12 + 4 * (s0 :: ss0).length)
      ++ (offtail.map (toBytesLE 4)).flatten) [] D ?_ hvals hdelta
  rw [flatten_map_flatten]
  simp [hD, List.append_assoc]

/-- C10 (amended): for every non-empty list of strings of 16-bit values
whose final encoded length `12 + 4·n + 2·Σ|sᵢ|` fits the 32-bit length and
offset fields, encoding with 32-bit offsets and decoding the produced
bytes reproduces the strings exactly; for the empty list the round-trip
does not reproduce the input (decode reads a single six-zero string); a
table whose encoded length reaches `2^32` fails to encode at all. -/
theorem mtx_roundtrip_32 :
    (∀ strings : List (List Nat), strings ≠ [] →
      (∀ s ∈ strings, ∀ v ∈ s, v < 2 ^ 16) →
      12 + 4 * strings.length + 2 * (strings.map List.length).sum < 2 ^ 32 →
      ∃ bs, mtxEncode32 strings = some bs ∧ mtxDecode bs = .ok strings) ∧
    (∀ bs, mtxEncode32 [] = some bs → mtxDecode bs ≠ .ok []) := by
  constructor
  · intro strings hne hvals hsize
    obtain ⟨s0, ss0, rfl⟩ : ∃ s0 ss0, strings = s0 :: ss0 := by
      cases strings with
      | nil => exact absurd rfl hne
      | cons a b => exact ⟨a, b, rfl⟩
    have h2to16 : (256 : Nat) ^ 2 = 2 ^ 16 := by norm_num
    have h2to32 : (256 : Nat) ^ 4 = 2 ^ 32 := by norm_num
    obtain ⟨offlist, T, hoff⟩ :
        ∃ ol t, mtxOffsetsGo ((s0 :: ss0).map fun s => 2 * s.length)
          (12 + 4 * (s0 :: ss0).length) = (ol, t) := ⟨_, _, rfl⟩
    have hsum2 : ((s0 :: ss0).map fun s => 2 * s.length).sum
        = 2 * ((s0 :: ss0).map List.length).sum := sum_map_two_mul (s0 :: ss0)
    have hsnd := mtxOffsetsGo_snd ((s0 :: ss0).map fun s => 2 * s.length)
      (12 + 4 * (s0 :: ss0).length)
    rw [hoff] at hsnd
    simp only at hsnd
    have hT : T = 12 + 4 * (s0 :: ss0).length
        + 2 * ((s0 :: ss0).map List.length).sum := by
      rw [hsnd, hsum2]
    have hT32 : T < 2 ^ 32 := by rw [hT]; exact hsize
    have hTpos : 0 < T := by rw [hT]; omega
    have hfstlen := mtxOffsetsGo_fst_length
      ((s0 :: ss0).map fun s => 2 * s.length) (12 + 4 * (s0 :: ss0).length)
    rw [hoff] at hfstlen
    simp only at hfstlen
    have hofflen : offlist.length = (s0 :: ss0).length := by
      rw [hfstlen, List.length_map]
    have hoffmem : ∀ o ∈ offlist, o < 2 ^ 32 := by
      intro o ho
      have hm := mtxOffsetsGo_mem ((s0 :: ss0).map fun s => 2 * s.length)
        (12 + 4 * (s0 :: ss0).length) o (by rw [hoff]; exact ho)
      omega
    have hchars : ∀ c ∈ (s0 :: ss0).flatten, c < 2 ^ 16 := by
      intro c hc
      obtain ⟨s, hs2, hcs⟩ := List.mem_flatten.mp hc
      exact hvals s hs2 c hcs
    have henc : mtxEncode32 (s0 :: ss0)
        = some (((((T, 4) :: (8, 4) :: (12, 4) ::
              offlist.map fun o => (o, 4))
            ++ (s0 :: ss0).flatten.map fun c => (c, 2)).map
            fun p : Nat × Nat => toBytesLE p.2 p.1).flatten) := by
      rw [mtxEncode32_eq, hoff]
      refine writeAllWords_all_fit _ ?_
      intro p hp
      rcases List.mem_append.mp hp with hp1 | hp2
      · rcases List.mem_cons.mp hp1 with rfl | hp1
        · show T < 256 ^ 4
          rw [h2to32]
          exact hT32
        rcases List.mem_cons.mp hp1 with rfl | hp1
        · show (8 : Nat) < 256 ^ 4
          norm_num
        rcases List.mem_cons.mp hp1 with rfl | hp1
        · show (12 : Nat) < 256 ^ 4
          norm_num
        · obtain ⟨o, ho, rfl⟩ := List.mem_map.mp hp1
          show o < 256 ^ 4
          rw [h2to32]
          exact hoffmem o ho
      · obtain ⟨c, hc, rfl⟩ := List.mem_map.mp hp2
        show c < 256 ^ 2
        rw [h2to16]
        exact hchars c hc
    have hfsteq : (mtxOffsetsGo ((s0 :: ss0).map fun s => 2 * s.length)
        (12 + 4 * (s0 :: ss0).length)).1 = offlist := by rw [hoff]
    have hsndeq : (mtxOffsetsGo ((s0 :: ss0).map fun s => 2 * s.length)
        (12 + 4 * (s0 :: ss0).length)).2 = T := by rw [hoff]
    obtain ⟨offtail, hoffcons⟩ :
        ∃ tl, offlist = (12 + 4 * (s0 :: ss0).length) :: tl :=
      ⟨_, by rw [← hfsteq]; rfl⟩
    have hofftaillen : offtail.length = ss0.length := by
      have h := hofflen
      rw [hoffcons] at h
      simp only [List.length_cons] at h
      omega
    have hofftailmem : ∀ o ∈ offtail, o < 2 ^ 32 := by
      intro o ho
      refine hoffmem o ?_
      rw [hoffcons]
      exact List.mem_cons_of_mem _ ho
    have hdelta : OffsetsDelta
        ((12 + 4 * (s0 :: ss0).length) :: (offtail ++ [T]))
        ((s0 :: ss0).map fun s => 2 * s.length) := by
      have hd := mtxOffsetsGo_delta ((s0 :: ss0).map fun s => 2 * s.length)
        (12 + 4 * (s0 :: ss0).length)
      rw [hfsteq, hsndeq, hoffcons, List.cons_append] at hd
      exact hd
    refine ⟨_, henc, ?_⟩
    rw [mapPairs_flatten, hoffcons]
    exact mtxDecode_layout T s0 ss0 offtail hvals hofftaillen hofftailmem
      hT hT32 hdelta
  · intro bs h hcon
    have he : mtxEncode32 []
        = some [12, 0, 0, 0, 8, 0, 0, 0, 12, 0, 0, 0] := by decide
    rw [he] at h
    injection h with h
    subst h
    have hd : mtxDecode [12, 0, 0, 0, 8, 0, 0, 0, 12, 0, 0, 0]
        = .ok [[0, 0, 0, 0, 0, 0]] := by decide
    rw [hd] at hcon
    injection hcon with hcon
    simp at hcon

theorem mtx_roundtrip_32_witness :
    ∃ bs, mtxEncode32 [[65]] = some bs ∧ mtxDecode bs = .ok [[65]] :=
  mtx_roundtrip_32.1 [[65]] (by decide) (by decide) (by decide)

end LegacyPuyo
